import Mathlib

/-!
# Group-call media keystore (src/src/keystore/keystore.c)

A shallow embedding of the keystore of the calling stack: a ring of `NUM_KEYS`
key slots with two cursors (`current`, `head`), an HKDF based ratchet, and a
list of change listeners.

Modelling conventions.

* Bytes and 32-bit indices are natural numbers; every 32-bit addition of the
  source is followed by an explicit `% U32_MOD`.
* The two key buffers of a slot are byte lists of length
  `E2EE_SESSIONKEY_SIZE` (the C arrays have that fixed size).
* `HKDF` is a collaborator (OpenSSL): it is a parameter `H` of every function
  that derives a key.  `H ikm salt info` is the 32-byte output, or `none` when
  the primitive reports failure; on failure the destination buffer is left as
  it was.
* `tmr_jiffies()` is the argument `now` of the functions that stamp
  `update_ts`.
* Listener callbacks are external code that may not re-enter the keystore; an
  operation returns the list of listeners it invoked, in invocation order.
* The lock, the `hash_md` constant, null-pointer guards and allocation
  failures are outside the model: every function is given a live keystore
  and allocation succeeds.
* The `while` loop of `keystore_hash_to_key` runs on fuel; `none` means the
  fuel ran out before the loop condition became false.
-/

namespace Avs

abbrev Byte := Nat

/-- Modelled from the spec: the constant `E2EE_SESSIONKEY_SIZE` is declared in
avs_keystore.h, which is not among the sources; the spec fixes session and
media keys to 32 bytes. -/
abbrev E2EE_SESSIONKEY_SIZE : Nat := 32

abbrev NUM_KEYS : Nat := 4

/-- Modulus of `uint32_t` arithmetic. -/
abbrev U32_MOD : Nat := 4294967296

def SKEY_INFO : List Byte := "session_key".toList.map Char.toNat

def MKEY_INFO : List Byte := "media_key".toList.map Char.toNat

def CS_INFO : List Byte := "cs".toList.map Char.toNat

/-- Error codes returned by the keystore (`OK` is the return value 0). -/
inductive Errno where
  | OK
  | EINVAL
  | ENOMEM
  | EALREADY
  | ENOENT
  deriving DecidableEq, Repr

/-- A key buffer `uint8_t [E2EE_SESSIONKEY_SIZE]`. -/
abbrev Key := { l : List Byte // l.length = E2EE_SESSIONKEY_SIZE }

/-- The HKDF collaborator at output length `E2EE_SESSIONKEY_SIZE`:
`H ikm salt info`. -/
abbrev Hkdf := List Byte → List Byte → List Byte → Option Key

/-- A buffer of `n` zero bytes (`memset(p, 0, n)`). -/
def zeros (n : Nat) : List Byte := List.replicate n 0

/-- The all-zero key buffer. -/
def zero_key : Key := ⟨zeros E2EE_SESSIONKEY_SIZE, by simp [zeros]⟩

/-- The buffer after `memset(skey, 0, E2EE_SESSIONKEY_SIZE); memcpy(skey, key, sz)`
with `sz = MIN(ksz, E2EE_SESSIONKEY_SIZE)` and `ksz` the length of `key`. -/
def load_key (key : List Byte) : Key :=
  ⟨key.take (min key.length E2EE_SESSIONKEY_SIZE)
      ++ zeros (E2EE_SESSIONKEY_SIZE - min key.length E2EE_SESSIONKEY_SIZE),
    by simp [zeros]⟩

/-- Result of `memcmp(stored, key, sz) == 0` with
`sz = MIN(ksz, E2EE_SESSIONKEY_SIZE)`. -/
def key_matches (stored : Key) (key : List Byte) : Bool :=
  decide (stored.val.take (min key.length E2EE_SESSIONKEY_SIZE)
    = key.take (min key.length E2EE_SESSIONKEY_SIZE))

/-- The caller's buffer after `memset(pkey, 0, ksz); memcpy(pkey, k, sz)` with
`sz = MIN(ksz, E2EE_SESSIONKEY_SIZE)`. -/
def read_key (k : Key) (ksz : Nat) : List Byte :=
  k.val.take (min ksz E2EE_SESSIONKEY_SIZE) ++ zeros (ksz - min ksz E2EE_SESSIONKEY_SIZE)

structure listener where
  changedh : Nat
  arg : Nat
  deriving DecidableEq, Repr

structure keyinfo where
  skey : Key
  mkey : Key
  index : Nat
  isset : Bool
  deriving DecidableEq

/-- A zeroed slot (`mem_zalloc`, `sodium_memzero`). -/
def keyinfo.zero : keyinfo :=
  { skey := zero_key, mkey := zero_key, index := 0, isset := false }

structure keystore where
  keys : Fin NUM_KEYS → keyinfo
  current : Fin NUM_KEYS
  head : Fin NUM_KEYS
  init : Bool
  salt : List Byte
  has_keys : Bool
  decrypt_successful : Bool
  decrypt_attempted : Bool
  listeners : List listener
  update_ts : Nat

/-- Assignment to the slot `ks->keys[k]`. -/
def keystore.set_key (ks : keystore) (k : Fin NUM_KEYS) (v : keyinfo) : keystore :=
  { ks with keys := fun j => if j = k then v else ks.keys j }

/-- Ring successor `(h + 1) % NUM_KEYS`. -/
def next_slot (h : Fin NUM_KEYS) : Fin NUM_KEYS :=
  ⟨(h.val + 1) % NUM_KEYS, Nat.mod_lt _ (by decide)⟩

/-- Outcome of an operation that changes the keystore: return code, state
after the call, and the listeners invoked during the call. -/
structure OpResult where
  err : Errno
  ks : keystore
  fired : List listener

/-- Outcome of a session-key getter: return code, `*pindex` when it was
written, and the `ksz` bytes of `pkey` after the call. -/
structure KeyResult where
  err : Errno
  index : Option Nat
  key : List Byte
  deriving DecidableEq

/-- Outcome of `keystore_get_media_key`: return code, state after the call
and the `ksz` bytes of `pkey` after the call. -/
structure MediaResult where
  err : Errno
  ks : keystore
  key : List Byte

def keystore_alloc (now : Nat) : keystore :=
  { keys := fun _ => keyinfo.zero
    current := 0
    head := 0
    init := false
    salt := []
    has_keys := false
    decrypt_successful := false
    decrypt_attempted := false
    listeners := []
    update_ts := now }

def keystore_reset_keys (ks : keystore) : OpResult :=
  { err := Errno.OK
    ks := { ks with
      keys := fun _ => keyinfo.zero
      current := 0
      head := 0
      init := false
      has_keys := false
      decrypt_attempted := false
      decrypt_successful := false }
    fired := [] }

def keystore_reset (ks : keystore) : OpResult :=
  { err := Errno.OK
    ks := { ks with
      keys := fun _ => keyinfo.zero
      current := 0
      head := 0
      init := false
      salt := []
      has_keys := false
      decrypt_attempted := false
      decrypt_successful := false }
    fired := [] }

def keystore_set_salt (ks : keystore) (salt : List Byte) (now : Nat) : OpResult :=
  { err := Errno.OK
    ks := { ks with salt := salt, update_ts := now }
    fired := [] }

/-- The function `keystore_derive_media_key(ks, index)`; `index` is a slot position. -/
def keystore_derive_media_key (H : Hkdf) (ks : keystore) (index : Fin NUM_KEYS) :
    Errno × keystore :=
  match H (ks.keys index).skey.val ks.salt MKEY_INFO with
  | some m => (Errno.OK, ks.set_key index { ks.keys index with mkey := m })
  | none => (Errno.EINVAL, ks)

/-- The function `keystore_derive_session_key(ks, &ks->keys[prev], &ks->keys[next])`. -/
def keystore_derive_session_key (H : Hkdf) (ks : keystore) (prev next : Fin NUM_KEYS) :
    Errno × keystore :=
  match H (ks.keys prev).skey.val ks.salt SKEY_INFO with
  | some s => (Errno.OK, ks.set_key next { ks.keys next with skey := s })
  | none => (Errno.EINVAL, ks)

/-- The `while` loop of `keystore_hash_to_key` from loop variable `h`, with
the assignment `ks->head = h` that follows it. -/
def hash_to_key_loop (H : Hkdf) (index : Nat) :
    Nat → keystore → Fin NUM_KEYS → Option (Errno × keystore)
  | 0, _, _ => none
  | fuel + 1, ks, h =>
    if (ks.keys h).index < index then
      let n := next_slot h
      let r1 := keystore_derive_session_key H ks h n
      if r1.1 ≠ Errno.OK then some r1
      else
        let r2 := keystore_derive_media_key H r1.2 n
        if r2.1 ≠ Errno.OK then some r2
        else
          let ks3 := r2.2.set_key n
            { r2.2.keys n with index := ((r2.2.keys h).index + 1) % U32_MOD, isset := true }
          hash_to_key_loop H index fuel ks3 n
    else some (Errno.OK, { ks with head := h })

def keystore_hash_to_key (H : Hkdf) (ks : keystore) (index : Nat) : Option (Errno × keystore) :=
  hash_to_key_loop H index U32_MOD ks ks.head

/-- The first slot `k` of the scan `for (k = 0; k < NUM_KEYS; k++)` with
`ks->keys[k].isset && ks->keys[k].index == index`. -/
def find_key (ks : keystore) (index : Nat) : Option (Fin NUM_KEYS) :=
  (List.finRange NUM_KEYS).find? (fun k => (ks.keys k).isset && decide ((ks.keys k).index = index))

/-- The destination slot `h` that `keystore_set_session_key` chooses when no
slot holds the index yet. -/
def insert_slot (ks : keystore) (index : Nat) : Fin NUM_KEYS :=
  if ks.head ≠ ks.current ∧ (ks.keys ks.head).isset = true
      ∧ index < (ks.keys ks.head).index then
    next_slot ks.current
  else
    next_slot ks.head

def keystore_set_session_key (H : Hkdf) (ks : keystore) (index : Nat) (key : List Byte)
    (now : Nat) : OpResult :=
  if (ks.keys ks.current).isset = true ∧ index < (ks.keys ks.current).index then
    { err := Errno.EALREADY, ks := ks, fired := [] }
  else
    match find_key ks index with
    | some k =>
      if key_matches (ks.keys k).skey key then
        { err := Errno.EALREADY, ks := ks, fired := [] }
      else
        let ks1 := ks.set_key k { ks.keys k with skey := load_key key }
        let ks2 := { ks1 with update_ts := now }
        let r := keystore_derive_media_key H ks2 k
        { err := r.1, ks := r.2, fired := [] }
    | none =>
      let h := insert_slot ks index
      let ks1 := ks.set_key h { ks.keys h with skey := load_key key, index := index }
      let ks2 := if ks1.init then ks1 else { ks1 with current := h, init := true }
      let fired := if ks1.init then [] else ks1.listeners
      let ks3 := { ks2 with head := h, update_ts := now }
      let r := keystore_derive_media_key H ks3 h
      if r.1 ≠ Errno.OK then
        { err := r.1, ks := r.2, fired := fired }
      else
        let ks4 := r.2.set_key h { r.2.keys h with isset := true }
        { err := Errno.OK, ks := { ks4 with has_keys := true }, fired := fired }

def keystore_set_fresh_session_key (H : Hkdf) (ks : keystore) (index : Nat) (key : List Byte)
    (salt : List Byte) (now : Nat) : OpResult :=
  match H key salt CS_INFO with
  | some hashed_key => keystore_set_session_key H ks index hashed_key.val now
  | none => { err := Errno.EINVAL, ks := ks, fired := [] }

def keystore_get_current_session_key (ks : keystore) (ksz : Nat) : KeyResult :=
  if (ks.keys ks.current).isset then
    { err := Errno.OK
      index := some (ks.keys ks.current).index
      key := read_key (ks.keys ks.current).skey ksz }
  else
    { err := Errno.ENOENT, index := none, key := zeros ksz }

def keystore_get_next_session_key (ks : keystore) (ksz : Nat) : KeyResult :=
  if ks.head ≠ ks.current ∧ (ks.keys ks.head).isset = true then
    { err := Errno.OK
      index := some (ks.keys ks.head).index
      key := read_key (ks.keys ks.head).skey ksz }
  else
    { err := Errno.ENOENT, index := none, key := zeros ksz }

def keystore_rotate (H : Hkdf) (ks : keystore) : Option OpResult :=
  if ks.current = ks.head then
    match keystore_hash_to_key H ks (((ks.keys ks.head).index + 1) % U32_MOD) with
    | none => none
    | some r =>
      if r.1 ≠ Errno.OK then some { err := r.1, ks := r.2, fired := [] }
      else some { err := Errno.OK, ks := { r.2 with current := r.2.head }, fired := r.2.listeners }
  else
    some { err := Errno.OK, ks := { ks with current := ks.head }, fired := ks.listeners }

/-- The function `keystore_get_current`: `(*pindex, *updated_ts)` or `ENOENT`. -/
def keystore_get_current (ks : keystore) : Errno × Option (Nat × Nat) :=
  if (ks.keys ks.current).isset then
    (Errno.OK, some ((ks.keys ks.current).index, ks.update_ts))
  else
    (Errno.ENOENT, none)

def keystore_get_media_key (H : Hkdf) (ks : keystore) (index : Nat) (ksz : Nat) :
    Option MediaResult :=
  match find_key ks index with
  | some kid =>
    let ks1 := if index > (ks.keys ks.current).index then { ks with current := kid } else ks
    some { err := Errno.OK, ks := ks1, key := read_key (ks.keys kid).mkey ksz }
  | none =>
    if (ks.keys ks.head).isset = true ∧ index > (ks.keys ks.head).index
        ∧ index < ((ks.keys ks.head).index + NUM_KEYS) % U32_MOD then
      match keystore_hash_to_key H ks index with
      | none => none
      | some r =>
        if r.1 ≠ Errno.OK then some { err := Errno.ENOENT, ks := r.2, key := zeros ksz }
        else
          let ks2 :=
            if index > (r.2.keys r.2.current).index then { r.2 with current := r.2.head }
            else r.2
          some { err := Errno.OK, ks := ks2, key := read_key (r.2.keys r.2.head).mkey ksz }
    else
      some { err := Errno.ENOENT, ks := ks, key := zeros ksz }

def keystore_get_max_key (ks : keystore) : Nat :=
  (ks.keys ks.head).index

def keystore_set_decrypt_attempted (ks : keystore) : OpResult :=
  { err := Errno.OK, ks := { ks with decrypt_attempted := true }, fired := [] }

def keystore_set_decrypt_successful (ks : keystore) : OpResult :=
  { err := Errno.OK, ks := { ks with decrypt_successful := true }, fired := [] }

def keystore_has_keys (ks : keystore) : Bool :=
  ks.has_keys

/-- The function `keystore_get_decrypt_states`: `(*attempted, *successful)`. -/
def keystore_get_decrypt_states (ks : keystore) : Bool × Bool :=
  (ks.decrypt_attempted, ks.decrypt_successful)

def keystore_add_listener (ks : keystore) (changedh : Nat) (arg : Nat) : OpResult :=
  { err := Errno.OK
    ks := { ks with listeners := ks.listeners ++ [{ changedh := changedh, arg := arg }] }
    fired := [] }

/-- The list after unlinking the first listener whose `arg` is the given one. -/
def unlink_first (arg : Nat) : List listener → List listener
  | [] => []
  | l :: rest => if l.arg = arg then rest else l :: unlink_first arg rest

def keystore_remove_listener (ks : keystore) (arg : Nat) : OpResult :=
  { err := Errno.OK
    ks := { ks with listeners := unlink_first arg ks.listeners }
    fired := [] }

/-- Every invocation of the HKDF collaborator succeeds. -/
def HkdfOk (H : Hkdf) : Prop := ∀ ikm salt info, (H ikm salt info).isSome = true

/-- A state-changing call of the public interface, with its arguments. The
getters that leave the keystore untouched are not listed. -/
inductive Op where
  | reset_keys
  | reset
  | set_salt (salt : List Byte) (now : Nat)
  | set_session_key (index : Nat) (key : List Byte) (now : Nat)
  | set_fresh_session_key (index : Nat) (key : List Byte) (salt : List Byte) (now : Nat)
  | rotate
  | get_media_key (index : Nat) (ksz : Nat)
  | set_decrypt_attempted
  | set_decrypt_successful
  | add_listener (changedh : Nat) (arg : Nat)
  | remove_listener (arg : Nat)

/-- All bytes of a buffer are below 256. -/
def bytes_ok (l : List Byte) : Bool := l.all (fun b => decide (b < 256))

/-- The arguments of a call fit their C types: indices are `uint32_t`, buffers hold bytes. -/
def Op.wf : Op → Bool
  | Op.set_salt salt _ => bytes_ok salt
  | Op.set_session_key index key _ => decide (index < U32_MOD) && bytes_ok key
  | Op.set_fresh_session_key index key salt _ =>
    decide (index < U32_MOD) && bytes_ok key && bytes_ok salt
  | Op.get_media_key index _ => decide (index < U32_MOD)
  | _ => true

/-- State after one call; `none` when the ratchet loop ran out of fuel. -/
def Op.apply (H : Hkdf) (ks : keystore) : Op → Option keystore
  | Op.reset_keys => some (keystore_reset_keys ks).ks
  | Op.reset => some (keystore_reset ks).ks
  | Op.set_salt salt now => some (keystore_set_salt ks salt now).ks
  | Op.set_session_key index key now => some (keystore_set_session_key H ks index key now).ks
  | Op.set_fresh_session_key index key salt now =>
    some (keystore_set_fresh_session_key H ks index key salt now).ks
  | Op.rotate => (keystore_rotate H ks).map (fun r => r.ks)
  | Op.get_media_key index ksz => (keystore_get_media_key H ks index ksz).map (fun r => r.ks)
  | Op.set_decrypt_attempted => some (keystore_set_decrypt_attempted ks).ks
  | Op.set_decrypt_successful => some (keystore_set_decrypt_successful ks).ks
  | Op.add_listener changedh arg => some (keystore_add_listener ks changedh arg).ks
  | Op.remove_listener arg => some (keystore_remove_listener ks arg).ks

/-- State after a sequence of calls, applied left to right. -/
def run_ops (H : Hkdf) : List Op → keystore → Option keystore
  | [], ks => some ks
  | op :: rest, ks =>
    match op.apply H ks with
    | some ks1 => run_ops H rest ks1
    | none => none

/-- The states that a sequence of well-typed public calls produces from a
freshly created keystore. -/
def Reachable (H : Hkdf) (ks : keystore) : Prop :=
  ∃ now ops, (∀ op ∈ ops, op.wf = true) ∧ run_ops H ops (keystore_alloc now) = some ks

/-- A stand-in for HKDF used to evaluate the model on concrete inputs: the
output is the input key shifted by one byte, with the first byte of `info`
in front. It never fails. -/
def demo_hkdf : Hkdf := fun ikm _ info => some (load_key (info.headD 0 :: ikm))

/-- Key of 32 bytes, each `b`. -/
def demo_key (b : Byte) : List Byte := List.replicate E2EE_SESSIONKEY_SIZE b

/-- The keystore of scenario S1: created at time 0, salt `00 01 02 03`, then
the key `0x11...` stored under index 5. -/
def demo_s1 : keystore :=
  (keystore_set_session_key demo_hkdf (keystore_set_salt (keystore_alloc 0) [0, 1, 2, 3] 1).ks
    5 (demo_key 0x11) 2).ks

/-- Key buffer of 32 bytes, each `b`. -/
def demo_key32 (b : Byte) : Key := ⟨demo_key b, by simp [demo_key]⟩

/-- Scenario S2 before the rotation: `demo_s1`, then the key `0x22...` stored
under index 6. -/
def demo_s2 : keystore :=
  (keystore_set_session_key demo_hkdf demo_s1 6 (demo_key 0x22) 3).ks

/-- A fresh keystore with one registered listener (callback 1, argument 7). -/
def demo_l0 : keystore := (keystore_add_listener (keystore_alloc 0) 1 7).ks

/-- The keystore `demo_l0` after the key `0x11...` was stored under index 5. -/
def demo_l1 : keystore := (keystore_set_session_key demo_hkdf demo_l0 5 (demo_key 0x11) 1).ks

/-- Stores a list of `(index, key)` pairs with `keystore_set_session_key`, one
call per pair in list order (all stamped `now`), with no other call in
between. -/
def store_keys (H : Hkdf) (now : Nat) : List (Nat × List Byte) → keystore → keystore
  | [], ks => ks
  | a :: rest, ks => store_keys H now rest (keystore_set_session_key H ks a.1 a.2 now).ks

/-- State description after `j` keys with increasing indices were stored in a
fresh keystore, `first` being the first index and `last` the latest. -/
def AfterStores (ks : keystore) (first last j : Nat) : Prop :=
  1 ≤ j ∧ ks.init = true ∧ ks.current = 1 ∧ ks.head.val = j % NUM_KEYS
    ∧ (ks.keys ks.head).isset = true ∧ (ks.keys ks.head).index = last
    ∧ (ks.keys 1).isset = true
    ∧ (∀ k, (ks.keys k).isset = true → (ks.keys k).index ≤ last)
    ∧ (j ≤ NUM_KEYS → (ks.keys 1).index = first)

/-- One ratchet step: the next session key `HKDF(x, salt, "session_key")`. -/
def ratchet_key (H : Hkdf) (salt : List Byte) (x : Key) : Option Key :=
  H x.val salt SKEY_INFO

/-- The media key `HKDF(x, salt, "media_key")` of a session key. -/
def media_key_of (H : Hkdf) (salt : List Byte) (x : Key) : Option Key :=
  H x.val salt MKEY_INFO

/-- The session key after `d` ratchet steps from `x`. -/
def ratchet_keys (H : Hkdf) (salt : List Byte) : Nat → Key → Option Key
  | 0, x => some x
  | d + 1, x => (ratchet_key H salt x).bind (ratchet_keys H salt d)

/-- Registers the listeners of a list with `keystore_add_listener`, one call
per entry in list order. -/
def add_listeners : List listener → keystore → keystore
  | [], ks => ks
  | l :: rest, ks => add_listeners rest (keystore_add_listener ks l.changedh l.arg).ks

/-- The lock call with which a function opens its critical section:
`lock_read_get` or `lock_write_get`. -/
inductive LockMode where
  | read
  | write
  deriving DecidableEq, Repr

/-- The lock call made by the function behind each state-changing call, as in
the source: `lock_write_get` in every one of them except
`keystore_get_media_key`, which calls `lock_read_get`
(`keystore_set_fresh_session_key` takes the lock inside
`keystore_set_session_key`). -/
def Op.lock_mode : Op → LockMode
  | Op.get_media_key _ _ => LockMode.read
  | _ => LockMode.write

/-- The `while` loop of `keystore_hash_to_key` as in `hash_to_key_loop`,
returning next to its result the number of calls of
`keystore_derive_session_key` that it made. -/
def hash_to_key_loop_counted (H : Hkdf) (index : Nat) :
    Nat → keystore → Fin NUM_KEYS → Option ((Errno × keystore) × Nat)
  | 0, _, _ => none
  | fuel + 1, ks, h =>
    if (ks.keys h).index < index then
      let n := next_slot h
      let r1 := keystore_derive_session_key H ks h n
      if r1.1 ≠ Errno.OK then some (r1, 1)
      else
        let r2 := keystore_derive_media_key H r1.2 n
        if r2.1 ≠ Errno.OK then some (r2, 1)
        else
          let ks3 := r2.2.set_key n
            { r2.2.keys n with index := ((r2.2.keys h).index + 1) % U32_MOD, isset := true }
          (hash_to_key_loop_counted H index fuel ks3 n).map (fun r => (r.1, r.2 + 1))
    else some ((Errno.OK, { ks with head := h }), 0)

/-- The function `keystore_hash_to_key` with the count of session-key derivations. -/
def keystore_hash_to_key_counted (H : Hkdf) (ks : keystore) (index : Nat) :
    Option ((Errno × keystore) × Nat) :=
  hash_to_key_loop_counted H index U32_MOD ks ks.head

/-- The function `keystore_rotate` with the count of session-key derivations
made during the call. -/
def keystore_rotate_counted (H : Hkdf) (ks : keystore) : Option (OpResult × Nat) :=
  if ks.current = ks.head then
    match keystore_hash_to_key_counted H ks (((ks.keys ks.head).index + 1) % U32_MOD) with
    | none => none
    | some (r, c) =>
      if r.1 ≠ Errno.OK then some ({ err := r.1, ks := r.2, fired := [] }, c)
      else
        some ({ err := Errno.OK, ks := { r.2 with current := r.2.head }, fired := r.2.listeners },
          c)
  else
    some ({ err := Errno.OK, ks := { ks with current := ks.head }, fired := ks.listeners }, 0)

/-- The function `keystore_get_media_key` with the count of session-key
derivations made during the call. -/
def keystore_get_media_key_counted (H : Hkdf) (ks : keystore) (index : Nat) (ksz : Nat) :
    Option (MediaResult × Nat) :=
  match find_key ks index with
  | some kid =>
    let ks1 := if index > (ks.keys ks.current).index then { ks with current := kid } else ks
    some ({ err := Errno.OK, ks := ks1, key := read_key (ks.keys kid).mkey ksz }, 0)
  | none =>
    if (ks.keys ks.head).isset = true ∧ index > (ks.keys ks.head).index
        ∧ index < ((ks.keys ks.head).index + NUM_KEYS) % U32_MOD then
      match keystore_hash_to_key_counted H ks index with
      | none => none
      | some (r, c) =>
        if r.1 ≠ Errno.OK then some ({ err := Errno.ENOENT, ks := r.2, key := zeros ksz }, c)
        else
          let ks2 :=
            if index > (r.2.keys r.2.current).index then { r.2 with current := r.2.head }
            else r.2
          some ({ err := Errno.OK, ks := ks2, key := read_key (r.2.keys r.2.head).mkey ksz }, c)
    else
      some ({ err := Errno.ENOENT, ks := ks, key := zeros ksz }, 0)

/-- The index argument of the two calls that store a session key. -/
def Op.stored_index : Op → Option Nat
  | Op.set_session_key index _ _ => some index
  | Op.set_fresh_session_key index _ _ _ => some index
  | _ => none

/-- What a state-changing call does to the slots, the cursors, `init` and the
salt, when HKDF succeeds: `Effect H ks op ks1` lists the shapes that the state
`ks1` after the call `op` on `ks` can have. -/
inductive Effect (H : Hkdf) (ks : keystore) : Op → keystore → Prop where
  | same (op : Op) (ks1 : keystore) :
      ks1.keys = ks.keys → ks1.current = ks.current → ks1.head = ks.head →
      ks1.init = ks.init → ks1.salt = ks.salt → Effect H ks op ks1
  | salt (s : List Byte) (now : Nat) (ks1 : keystore) :
      ks1.keys = ks.keys → ks1.current = ks.current → ks1.head = ks.head →
      ks1.init = ks.init → ks1.salt = s → Effect H ks (Op.set_salt s now) ks1
  | cleared (op : Op) (ks1 : keystore) :
      (∀ k, (ks1.keys k).isset = false) → ks1.current = ks1.head → ks1.init = false →
      Effect H ks op ks1
  | overwrite (op : Op) (ks1 : keystore) (k : Fin NUM_KEYS) (sk m : Key) :
      (ks.keys k).isset = true → media_key_of H ks.salt sk = some m →
      ks1.keys = (fun j => if j = k then { ks.keys k with skey := sk, mkey := m } else ks.keys j) →
      ks1.current = ks.current → ks1.head = ks.head →
      ks1.init = ks.init → ks1.salt = ks.salt → Effect H ks op ks1
  | insert (op : Op) (ks1 : keystore) (i : Nat) (sk m : Key) :
      ¬ ((ks.keys ks.current).isset = true ∧ i < (ks.keys ks.current).index) →
      find_key ks i = none → media_key_of H ks.salt sk = some m →
      ks1.keys = (fun j => if j = insert_slot ks i then
        { skey := sk, mkey := m, index := i, isset := true } else ks.keys j) →
      ks1.current = (if ks.init then ks.current else insert_slot ks i) →
      ks1.head = insert_slot ks i →
      ks1.init = true → ks1.salt = ks.salt → op.stored_index = some i → Effect H ks op ks1
  | to_head (ks1 : keystore) :
      ks1.keys = ks.keys → ks1.current = ks.head → ks1.head = ks.head →
      ks1.init = ks.init → ks1.salt = ks.salt → Effect H ks Op.rotate ks1
  | found (i ksz : Nat) (ks1 : keystore) (k : Fin NUM_KEYS) :
      find_key ks i = some k → (ks.keys ks.current).index < i →
      ks1.keys = ks.keys → ks1.current = k → ks1.head = ks.head →
      ks1.init = ks.init → ks1.salt = ks.salt → Effect H ks (Op.get_media_key i ksz) ks1
  | ratchet (op : Op) (ks1 : keystore) (d : Nat) :
      1 ≤ d →
      (op = Op.rotate ∧ ks.current = ks.head) ∨ (ks.keys ks.head).isset = true →
      ks1.init = ks.init → ks1.salt = ks.salt →
      (ks1.keys ks1.head).isset = true →
      (ks1.keys ks1.head).index = (ks.keys ks.head).index + d →
      (∀ c, ks1.keys c = ks.keys c ∨
        ((ks1.keys c).isset = true ∧ (ks.keys ks.head).index < (ks1.keys c).index
          ∧ (ks1.keys c).index ≤ (ks.keys ks.head).index + d
          ∧ media_key_of H ks.salt (ks1.keys c).skey = some (ks1.keys c).mkey)) →
      (ks1.current = ks1.head ∨
        (ks1.current = ks.current ∧ ks1.keys ks.current = ks.keys ks.current
          ∧ (ks.keys ks.head).index + d ≤ (ks.keys ks.current).index)) →
      (∀ a b, ks1.keys a ≠ ks.keys a → ks1.keys b ≠ ks.keys b →
        (ks1.keys a).index = (ks1.keys b).index → a = b) →
      Effect H ks op ks1

/-- The states that well-typed public calls produce from a freshly created
keystore when every call `op` made in a state `ks` satisfies `allowed ks op`. -/
inductive ReachableVia (H : Hkdf) (allowed : keystore → Op → Prop) : keystore → Prop where
  | create (now : Nat) : ReachableVia H allowed (keystore_alloc now)
  | step (ks ks1 : keystore) (op : Op) :
      ReachableVia H allowed ks → op.wf = true → allowed ks op →
      op.apply H ks = some ks1 → ReachableVia H allowed ks1

/-- Invariant 4 of the spec: an occupied current slot has an index not above
the index of the head slot. -/
def CurrentBelowHead (ks : keystore) : Prop :=
  (ks.keys ks.current).isset = true → (ks.keys ks.current).index ≤ (ks.keys ks.head).index

/-- Invariant 5 of the spec: the media key of every occupied slot is
`HKDF(session key, salt, "media_key")` for the current salt of the keystore. -/
def MediaKeysDerived (H : Hkdf) (ks : keystore) : Prop :=
  ∀ k, (ks.keys k).isset = true → media_key_of H ks.salt (ks.keys k).skey = some (ks.keys k).mkey

/-- A call is not `keystore_get_media_key` for an index that sits in a set
slot above the index of the head slot. -/
def NoHitAboveHead (ks : keystore) (op : Op) : Prop :=
  ∀ i ksz, op = Op.get_media_key i ksz →
    ∀ k, find_key ks i = some k → i ≤ (ks.keys ks.head).index

/-- A call is not `keystore_set_salt` on a keystore that has a set slot. -/
def SaltOnlyWhenEmpty (ks : keystore) (op : Op) : Prop :=
  ∀ salt now, op = Op.set_salt salt now → ∀ k, (ks.keys k).isset = false

/-- A call is not `keystore_rotate` on a keystore whose `init` is false. -/
def RotateOnlyAfterInit (ks : keystore) (op : Op) : Prop :=
  op = Op.rotate → ks.init = true

/-- A stand-in for HKDF whose output depends on the salt: the input key
shifted by two bytes, with the first byte of `info` and the first byte of the
salt in front. It never fails. -/
def demo_hkdf_salted : Hkdf :=
  fun ikm salt info => some (load_key (info.headD 0 :: salt.headD 0 :: ikm))

/-- Index uniqueness: no two set slots hold the same index. -/
def DistinctIndices (ks : keystore) : Prop :=
  ∀ a b, (ks.keys a).isset = true → (ks.keys b).isset = true →
    (ks.keys a).index = (ks.keys b).index → a = b

/-- No set slot holds an index above the index of the head slot. -/
def NoneAboveHead (ks : keystore) : Prop :=
  ∀ k, (ks.keys k).isset = true → (ks.keys k).index ≤ (ks.keys ks.head).index

/-- A call does not store a key under a new index while a set slot other than
the destination slot holds a larger index. -/
def StoresAboveOthers (ks : keystore) (op : Op) : Prop :=
  ∀ i, op.stored_index = some i →
    ¬ ((ks.keys ks.current).isset = true ∧ i < (ks.keys ks.current).index) →
    find_key ks i = none →
    ∀ k, k ≠ insert_slot ks i → (ks.keys k).isset = true → (ks.keys k).index < i

/-! ## Auxiliary lemmas -/

@[simp] theorem ite_else_same_cond {α : Type} (c : Prop) [Decidable c] (a b d : α) :
    (if c then a else if c then b else d) = if c then a else d := by
  by_cases h : c <;> simp [h]

@[simp] theorem set_key_keys (ks : keystore) (k : Fin NUM_KEYS) (v : keyinfo) :
    (ks.set_key k v).keys = fun j => if j = k then v else ks.keys j := rfl

@[simp] theorem set_key_current (ks : keystore) (k : Fin NUM_KEYS) (v : keyinfo) :
    (ks.set_key k v).current = ks.current := rfl

@[simp] theorem set_key_head (ks : keystore) (k : Fin NUM_KEYS) (v : keyinfo) :
    (ks.set_key k v).head = ks.head := rfl

@[simp] theorem set_key_init (ks : keystore) (k : Fin NUM_KEYS) (v : keyinfo) :
    (ks.set_key k v).init = ks.init := rfl

@[simp] theorem set_key_salt (ks : keystore) (k : Fin NUM_KEYS) (v : keyinfo) :
    (ks.set_key k v).salt = ks.salt := rfl

@[simp] theorem set_key_listeners (ks : keystore) (k : Fin NUM_KEYS) (v : keyinfo) :
    (ks.set_key k v).listeners = ks.listeners := rfl

theorem demo_hkdf_ok : HkdfOk demo_hkdf := by
  intro ikm salt info
  rfl

theorem hkdf_some {H : Hkdf} (hH : HkdfOk H) (ikm salt info : List Byte) :
    ∃ m, H ikm salt info = some m :=
  Option.isSome_iff_exists.mp (hH ikm salt info)

theorem find_key_unroll (ks : keystore) (i : Nat) :
    find_key ks i =
      if (ks.keys 0).isset = true ∧ (ks.keys 0).index = i then some 0
      else if (ks.keys 1).isset = true ∧ (ks.keys 1).index = i then some 1
      else if (ks.keys 2).isset = true ∧ (ks.keys 2).index = i then some 2
      else if (ks.keys 3).isset = true ∧ (ks.keys 3).index = i then some 3
      else none := by
  have h4 : List.finRange NUM_KEYS = [0, 1, 2, 3] := by decide
  have e : ∀ k, ((ks.keys k).isset && decide ((ks.keys k).index = i))
      = decide ((ks.keys k).isset = true ∧ (ks.keys k).index = i) := by
    intro k; simp
  unfold find_key
  rw [h4]
  simp only [List.find?_cons, List.find?_nil, e]
  by_cases h0 : (ks.keys 0).isset = true ∧ (ks.keys 0).index = i <;>
  by_cases h1 : (ks.keys 1).isset = true ∧ (ks.keys 1).index = i <;>
  by_cases h2 : (ks.keys 2).isset = true ∧ (ks.keys 2).index = i <;>
  by_cases h3 : (ks.keys 3).isset = true ∧ (ks.keys 3).index = i <;>
  simp [h0, h1, h2, h3]

theorem find_key_some {ks : keystore} {i : Nat} {k : Fin NUM_KEYS} (h : find_key ks i = some k) :
    (ks.keys k).isset = true ∧ (ks.keys k).index = i := by
  unfold find_key at h
  have := List.find?_some h
  simpa using this

theorem find_key_none {ks : keystore} {i : Nat} (h : find_key ks i = none) (k : Fin NUM_KEYS) :
    ¬ ((ks.keys k).isset = true ∧ (ks.keys k).index = i) := by
  unfold find_key at h
  rw [List.find?_eq_none] at h
  have := h k (List.mem_finRange k)
  simpa using this

theorem find_key_none_of {ks : keystore} {i : Nat}
    (h : ∀ k, ¬ ((ks.keys k).isset = true ∧ (ks.keys k).index = i)) : find_key ks i = none := by
  rw [find_key_unroll]
  simp [h 0, h 1, h 2, h 3]

/-- The lookup only reads the `isset` and `index` fields. -/
theorem find_key_congr {ks ks1 : keystore} (i : Nat)
    (h : ∀ k, (ks1.keys k).isset = (ks.keys k).isset ∧ (ks1.keys k).index = (ks.keys k).index) :
    find_key ks1 i = find_key ks i := by
  unfold find_key
  congr 1
  funext k
  rw [(h k).1, (h k).2]

/-- After slot `h` is given index `i` and marked set, with the other slots
keeping flag and index, a lookup that missed before finds `h`. -/
theorem find_key_inserted {ks ks1 : keystore} {i : Nat} {h : Fin NUM_KEYS}
    (hnone : find_key ks i = none)
    (hset : (ks1.keys h).isset = true) (hidx : (ks1.keys h).index = i)
    (hother : ∀ k, k ≠ h →
      (ks1.keys k).isset = (ks.keys k).isset ∧ (ks1.keys k).index = (ks.keys k).index) :
    find_key ks1 i = some h := by
  have hn := find_key_none hnone
  have key : ∀ k, k ≠ h → ¬ ((ks1.keys k).isset = true ∧ (ks1.keys k).index = i) := by
    intro k hk
    rw [(hother k hk).1, (hother k hk).2]
    exact hn k
  cases hf : find_key ks1 i with
  | none => exact absurd ⟨hset, hidx⟩ (find_key_none hf h)
  | some k =>
    by_cases hk : k = h
    · rw [hk]
    · exact absurd (find_key_some hf) (key k hk)

theorem key_matches_load_key (key : List Byte) : key_matches (load_key key) key = true := by
  unfold key_matches load_key
  simp [List.take_append_of_le_length]

theorem load_key_of_length {key : List Byte} (h : key.length = E2EE_SESSIONKEY_SIZE) :
    (load_key key).val = key := by
  unfold load_key
  simp [h, zeros]

theorem load_key_val (K : Key) : load_key K.val = K := by
  apply Subtype.ext
  exact load_key_of_length K.property

theorem read_key_full (K : Key) : read_key K E2EE_SESSIONKEY_SIZE = K.val := by
  unfold read_key
  have hlen : K.val.length ≤ E2EE_SESSIONKEY_SIZE := le_of_eq K.property
  simp [zeros, List.take_of_length_le hlen]

theorem next_slot_ne (h : Fin NUM_KEYS) : next_slot h ≠ h := by
  fin_cases h <;> decide

/-- The staleness guard at the top of `keystore_set_session_key`. -/
theorem set_session_key_stale {H : Hkdf} {ks : keystore} {i : Nat} (key : List Byte) (now : Nat)
    (hset : (ks.keys ks.current).isset = true) (hi : i < (ks.keys ks.current).index) :
    keystore_set_session_key H ks i key now = { err := Errno.EALREADY, ks := ks, fired := [] } := by
  unfold keystore_set_session_key
  simp [hset, hi]

/-- A slot that holds the index with matching key bytes makes the call a no-op. -/
theorem set_session_key_same {H : Hkdf} {ks : keystore} {i : Nat} {k : Fin NUM_KEYS}
    (key : List Byte) (now : Nat)
    (hf : find_key ks i = some k) (hm : key_matches (ks.keys k).skey key = true) :
    keystore_set_session_key H ks i key now = { err := Errno.EALREADY, ks := ks, fired := [] } := by
  unfold keystore_set_session_key
  split
  · rfl
  · simp [hf, hm]

/-- The overwrite path of `keystore_set_session_key`. -/
theorem set_session_key_overwrite {H : Hkdf} {ks : keystore} {i : Nat} {k : Fin NUM_KEYS}
    {key : List Byte} {m : Key} (now : Nat)
    (hst : ¬ ((ks.keys ks.current).isset = true ∧ i < (ks.keys ks.current).index))
    (hf : find_key ks i = some k) (hm : key_matches (ks.keys k).skey key = false)
    (hH : H (load_key key).val ks.salt MKEY_INFO = some m) :
    keystore_set_session_key H ks i key now =
      { err := Errno.OK
        ks := { ks with
          keys := fun j =>
            if j = k then { ks.keys k with skey := load_key key, mkey := m } else ks.keys j
          update_ts := now }
        fired := [] } := by
  unfold keystore_set_session_key
  rw [if_neg hst]
  simp [hf, hm, keystore_derive_media_key, hH, keystore.set_key]

/-- The insertion path of `keystore_set_session_key`. -/
theorem set_session_key_insert {H : Hkdf} {ks : keystore} {i : Nat}
    {key : List Byte} {m : Key} (now : Nat)
    (hst : ¬ ((ks.keys ks.current).isset = true ∧ i < (ks.keys ks.current).index))
    (hf : find_key ks i = none)
    (hH : H (load_key key).val ks.salt MKEY_INFO = some m) :
    keystore_set_session_key H ks i key now =
      { err := Errno.OK
        ks := { ks with
          keys := fun j =>
            if j = insert_slot ks i then
              { skey := load_key key, mkey := m, index := i, isset := true }
            else ks.keys j
          current := if ks.init then ks.current else insert_slot ks i
          init := true
          head := insert_slot ks i
          has_keys := true
          update_ts := now }
        fired := if ks.init then [] else ks.listeners } := by
  unfold keystore_set_session_key
  rw [if_neg hst]
  cases hi : ks.init <;>
  simp [hf, keystore_derive_media_key, hH, keystore.set_key, hi]

/-! ## Claims -/

/-- C1: in a keystore in which a key has been stored (`init` true, current
slot set), `keystore_set_session_key` with an index smaller than the index of
the current slot returns `EALREADY` for every key of every size, leaves every
field of the keystore as it was, and invokes no listener. -/
theorem set_session_key_older_than_current (H : Hkdf) (ks : keystore) (j : Nat)
    (key : List Byte) (now : Nat)
    (_hinit : ks.init = true) (hset : (ks.keys ks.current).isset = true)
    (hj : j < (ks.keys ks.current).index) :
    (keystore_set_session_key H ks j key now).err = Errno.EALREADY
      ∧ (keystore_set_session_key H ks j key now).ks = ks
      ∧ (keystore_set_session_key H ks j key now).fired = [] := by
  rw [set_session_key_stale key now hset hj]
  exact ⟨rfl, rfl, rfl⟩

theorem set_session_key_older_than_current_witness :
    demo_s1.init = true ∧ (demo_s1.keys demo_s1.current).isset = true
      ∧ 3 < (demo_s1.keys demo_s1.current).index
      ∧ (keystore_set_session_key demo_hkdf demo_s1 3 (demo_key 0x22) 9).err = Errno.EALREADY
      ∧ (keystore_set_session_key demo_hkdf demo_s1 3 (demo_key 0x22) 9).ks = demo_s1
      ∧ (keystore_set_session_key demo_hkdf demo_s1 3 (demo_key 0x22) 9).fired = [] :=
  ⟨by decide, by decide, by decide,
    set_session_key_older_than_current demo_hkdf demo_s1 3 (demo_key 0x22) 9
      (by decide) (by decide) (by decide)⟩

/-- C2: with HKDF succeeding, storing the same key under the same index a
second time, directly after a first call (whatever that call returned),
returns `EALREADY`, invokes no listener and leaves the keystore exactly as the
first call left it. -/
theorem set_session_key_twice (H : Hkdf) (hH : HkdfOk H) (ks : keystore) (i : Nat)
    (key : List Byte) (now now2 : Nat) :
    (keystore_set_session_key H (keystore_set_session_key H ks i key now).ks i key now2).err
        = Errno.EALREADY
      ∧ (keystore_set_session_key H (keystore_set_session_key H ks i key now).ks i key now2).ks
        = (keystore_set_session_key H ks i key now).ks
      ∧ (keystore_set_session_key H (keystore_set_session_key H ks i key now).ks i key now2).fired
        = [] := by
  obtain ⟨m, hm⟩ := hkdf_some hH (load_key key).val ks.salt MKEY_INFO
  by_cases hst : (ks.keys ks.current).isset = true ∧ i < (ks.keys ks.current).index
  · rw [set_session_key_stale key now hst.1 hst.2]
    rw [set_session_key_stale key now2 hst.1 hst.2]
    exact ⟨rfl, rfl, rfl⟩
  · cases hf : find_key ks i with
    | some k =>
      cases hmatch : key_matches (ks.keys k).skey key with
      | true =>
        rw [set_session_key_same key now hf hmatch]
        rw [set_session_key_same key now2 hf hmatch]
        exact ⟨rfl, rfl, rfl⟩
      | false =>
        rw [set_session_key_overwrite now hst hf hmatch hm]
        have hf2 : find_key
            { ks with
              keys := fun j =>
            if j = k then { ks.keys k with skey := load_key key, mkey := m } else ks.keys j
              update_ts := now } i = some k := by
          rw [← hf]
          apply find_key_congr
          intro k2
          by_cases hk : k2 = k
          · subst hk; simp
          · simp [hk]
        rw [set_session_key_same key now2 hf2 (by simp [key_matches_load_key])]
        exact ⟨rfl, rfl, rfl⟩
    | none =>
      rw [set_session_key_insert now hst hf hm]
      have hf2 : find_key
          { ks with
            keys := fun j =>
              if j = insert_slot ks i then
                { skey := load_key key, mkey := m, index := i, isset := true }
              else ks.keys j
            current := if ks.init then ks.current else insert_slot ks i
            init := true
            head := insert_slot ks i
            has_keys := true
            update_ts := now } i = some (insert_slot ks i) := by
        apply find_key_inserted hf
        · simp
        · simp
        · intro k2 hk
          simp [hk]
      rw [set_session_key_same key now2 hf2 (by simp [key_matches_load_key])]
      exact ⟨rfl, rfl, rfl⟩

theorem set_session_key_twice_witness :
    HkdfOk demo_hkdf
      ∧ (keystore_set_session_key demo_hkdf
          (keystore_set_session_key demo_hkdf demo_s1 6 (demo_key 0x22) 3).ks 6 (demo_key 0x22)
          4).err = Errno.EALREADY
      ∧ (keystore_set_session_key demo_hkdf
          (keystore_set_session_key demo_hkdf demo_s1 6 (demo_key 0x22) 3).ks 6 (demo_key 0x22)
          4).ks = (keystore_set_session_key demo_hkdf demo_s1 6 (demo_key 0x22) 3).ks
      ∧ (keystore_set_session_key demo_hkdf
          (keystore_set_session_key demo_hkdf demo_s1 6 (demo_key 0x22) 3).ks 6 (demo_key 0x22)
          4).fired = [] :=
  ⟨demo_hkdf_ok,
    set_session_key_twice demo_hkdf demo_hkdf_ok demo_s1 6 (demo_key 0x22) 3 4⟩

/-- C3, as stated, fails: after keys 5 and 6 were stored and the keystore was
rotated to index 6, the slot with index 5 is still set and holds `0x11...`;
storing the different key `0x33...` under index 5 returns `EALREADY` and the
slot keeps `0x11...`. -/
theorem set_session_key_existing_index_refused :
    (run_ops demo_hkdf
        [Op.set_session_key 5 (demo_key 0x11) 1, Op.set_session_key 6 (demo_key 0x22) 2,
          Op.rotate] (keystore_alloc 0)).map
      (fun ks =>
        ((find_key ks 5).map (fun k => (ks.keys k).skey.val),
          (keystore_set_session_key demo_hkdf ks 5 (demo_key 0x33) 3).err,
          (find_key (keystore_set_session_key demo_hkdf ks 5 (demo_key 0x33) 3).ks 5).map
            (fun k => ((keystore_set_session_key demo_hkdf ks 5 (demo_key 0x33) 3).ks.keys k).skey.val)))
      = some (some (demo_key 0x11), Errno.EALREADY, some (demo_key 0x11)) := by
  decide

/-- C3, amended: when the lookup finds a set slot `k` with index `i`, the index
is not below the index of a set current slot, and `K` is a 32-byte key other
than the session key stored in `k`, then (HKDF giving `m` for the media key)
`keystore_set_session_key` returns success; afterwards slot `k` is still the
slot found for `i`, its session key is `K`, `keystore_get_media_key` for `i`
returns `m`, and `current`, `head` and the other slots are as before. -/
theorem set_session_key_overwrites_existing (H : Hkdf) (ks : keystore) (i : Nat)
    (k : Fin NUM_KEYS) (K m : Key) (now : Nat)
    (hst : ¬ ((ks.keys ks.current).isset = true ∧ i < (ks.keys ks.current).index))
    (hf : find_key ks i = some k)
    (hne : K ≠ (ks.keys k).skey)
    (hH : H K.val ks.salt MKEY_INFO = some m) :
    (keystore_set_session_key H ks i K.val now).err = Errno.OK
      ∧ find_key (keystore_set_session_key H ks i K.val now).ks i = some k
      ∧ ((keystore_set_session_key H ks i K.val now).ks.keys k).skey = K
      ∧ (keystore_get_media_key H (keystore_set_session_key H ks i K.val now).ks i
            E2EE_SESSIONKEY_SIZE).map (fun r => (r.err, r.key)) = some (Errno.OK, m.val)
      ∧ (keystore_set_session_key H ks i K.val now).ks.current = ks.current
      ∧ (keystore_set_session_key H ks i K.val now).ks.head = ks.head
      ∧ ∀ k2, k2 ≠ k → (keystore_set_session_key H ks i K.val now).ks.keys k2 = ks.keys k2 := by
  have hmatch : key_matches (ks.keys k).skey K.val = false := by
    unfold key_matches
    have h1 : (ks.keys k).skey.val.length ≤ E2EE_SESSIONKEY_SIZE := le_of_eq (ks.keys k).skey.property
    have h2 : K.val.length ≤ E2EE_SESSIONKEY_SIZE := le_of_eq K.property
    have h3 : K.val.length = E2EE_SESSIONKEY_SIZE := K.property
    simp only [h3, Nat.min_self, List.take_of_length_le h1, List.take_of_length_le h2,
      decide_eq_false_iff_not]
    intro heq
    exact hne (Subtype.ext heq.symm)
  have hH2 : H (load_key K.val).val ks.salt MKEY_INFO = some m := by
    rw [load_key_val]; exact hH
  rw [set_session_key_overwrite now hst hf hmatch hH2]
  have hf2 : find_key
      { ks with
        keys := fun j =>
          if j = k then { ks.keys k with skey := load_key K.val, mkey := m } else ks.keys j
        update_ts := now } i = some k := by
    rw [← hf]
    apply find_key_congr
    intro k2
    by_cases hk : k2 = k
    · subst hk; simp
    · simp [hk]
  refine ⟨rfl, hf2, ?_, ?_, rfl, rfl, ?_⟩
  · simp [load_key_val]
  · unfold keystore_get_media_key
    simp only [hf2]
    simp [read_key_full]
  · intro k2 hk
    simp [hk]

theorem set_session_key_overwrites_existing_witness :
    (¬ ((demo_s2.keys demo_s2.current).isset = true ∧ 6 < (demo_s2.keys demo_s2.current).index))
      ∧ find_key demo_s2 6 = some 2
      ∧ demo_key32 0x33 ≠ (demo_s2.keys 2).skey
      ∧ demo_hkdf (demo_key32 0x33).val demo_s2.salt MKEY_INFO
          = some (load_key (109 :: demo_key 0x33))
      ∧ (keystore_set_session_key demo_hkdf demo_s2 6 (demo_key32 0x33).val 4).err = Errno.OK
      ∧ find_key (keystore_set_session_key demo_hkdf demo_s2 6 (demo_key32 0x33).val 4).ks 6
          = some 2
      ∧ ((keystore_set_session_key demo_hkdf demo_s2 6 (demo_key32 0x33).val 4).ks.keys 2).skey
          = demo_key32 0x33
      ∧ (keystore_get_media_key demo_hkdf
            (keystore_set_session_key demo_hkdf demo_s2 6 (demo_key32 0x33).val 4).ks 6
            E2EE_SESSIONKEY_SIZE).map (fun r => (r.err, r.key))
          = some (Errno.OK, (load_key (109 :: demo_key 0x33)).val)
      ∧ (keystore_set_session_key demo_hkdf demo_s2 6 (demo_key32 0x33).val 4).ks.current
          = demo_s2.current
      ∧ (keystore_set_session_key demo_hkdf demo_s2 6 (demo_key32 0x33).val 4).ks.head
          = demo_s2.head
      ∧ (keystore_set_session_key demo_hkdf demo_s2 6 (demo_key32 0x33).val 4).ks.keys 1
          = demo_s2.keys 1 :=
  have h := set_session_key_overwrites_existing demo_hkdf demo_s2 6 2 (demo_key32 0x33)
    (load_key (109 :: demo_key 0x33)) 4 (by decide) (by decide) (by decide) rfl
  ⟨by decide, by decide, by decide, rfl, h.1, h.2.1, h.2.2.1, h.2.2.2.1, h.2.2.2.2.1,
    h.2.2.2.2.2.1, h.2.2.2.2.2.2 1 (by decide)⟩
/-- C4: on a freshly created keystore, with or without a salt set, and with
HKDF succeeding, storing a 32-byte key `K` under any index `i` returns
success; afterwards `keystore_get_current_session_key` returns `(i, K)`,
`keystore_get_next_session_key` returns `ENOENT`, `keystore_get_max_key` is `i`
and `keystore_has_keys` is true. -/
theorem first_key_round_trip (H : Hkdf) (hH : HkdfOk H) (ks : keystore) (t0 t1 now : Nat)
    (salt : List Byte) (i : Nat) (K : Key)
    (hks : ks = keystore_alloc t0 ∨ ks = (keystore_set_salt (keystore_alloc t0) salt t1).ks) :
    (keystore_set_session_key H ks i K.val now).err = Errno.OK
      ∧ keystore_get_current_session_key (keystore_set_session_key H ks i K.val now).ks
          E2EE_SESSIONKEY_SIZE = { err := Errno.OK, index := some i, key := K.val }
      ∧ (keystore_get_next_session_key (keystore_set_session_key H ks i K.val now).ks
          E2EE_SESSIONKEY_SIZE).err = Errno.ENOENT
      ∧ keystore_get_max_key (keystore_set_session_key H ks i K.val now).ks = i
      ∧ keystore_has_keys (keystore_set_session_key H ks i K.val now).ks = true := by
  obtain ⟨m, hm⟩ := hkdf_some hH (load_key K.val).val ks.salt MKEY_INFO
  have hempty : ∀ k, (ks.keys k).isset = false := by
    intro k
    rcases hks with h | h <;> subst h <;> rfl
  have hinit : ks.init = false := by
    rcases hks with h | h <;> subst h <;> rfl
  have hhc : ks.head = ks.current := by
    rcases hks with h | h <;> subst h <;> rfl
  have hst : ¬ ((ks.keys ks.current).isset = true ∧ i < (ks.keys ks.current).index) := by
    simp [hempty]
  have hf : find_key ks i = none := find_key_none_of (by simp [hempty])
  rw [set_session_key_insert now hst hf hm]
  simp [keystore_get_current_session_key, keystore_get_next_session_key, keystore_get_max_key,
    keystore_has_keys, hinit, read_key_full, load_key_val]

theorem first_key_round_trip_witness :
    ((keystore_set_salt (keystore_alloc 0) [0, 1, 2, 3] 1).ks = keystore_alloc 0
        ∨ (keystore_set_salt (keystore_alloc 0) [0, 1, 2, 3] 1).ks
          = (keystore_set_salt (keystore_alloc 0) [0, 1, 2, 3] 1).ks)
      ∧ (keystore_set_session_key demo_hkdf (keystore_set_salt (keystore_alloc 0) [0, 1, 2, 3] 1).ks
          5 (demo_key32 0x11).val 2).err = Errno.OK
      ∧ keystore_get_current_session_key
          (keystore_set_session_key demo_hkdf (keystore_set_salt (keystore_alloc 0) [0, 1, 2, 3] 1).ks
            5 (demo_key32 0x11).val 2).ks E2EE_SESSIONKEY_SIZE
          = { err := Errno.OK, index := some 5, key := (demo_key32 0x11).val }
      ∧ (keystore_get_next_session_key
          (keystore_set_session_key demo_hkdf (keystore_set_salt (keystore_alloc 0) [0, 1, 2, 3] 1).ks
            5 (demo_key32 0x11).val 2).ks E2EE_SESSIONKEY_SIZE).err = Errno.ENOENT
      ∧ keystore_get_max_key
          (keystore_set_session_key demo_hkdf (keystore_set_salt (keystore_alloc 0) [0, 1, 2, 3] 1).ks
            5 (demo_key32 0x11).val 2).ks = 5
      ∧ keystore_has_keys
          (keystore_set_session_key demo_hkdf (keystore_set_salt (keystore_alloc 0) [0, 1, 2, 3] 1).ks
            5 (demo_key32 0x11).val 2).ks = true :=
  ⟨Or.inr rfl,
    first_key_round_trip demo_hkdf demo_hkdf_ok (keystore_set_salt (keystore_alloc 0) [0, 1, 2, 3] 1).ks
      0 1 2 [0, 1, 2, 3] 5 (demo_key32 0x11) (Or.inr rfl)⟩

theorem afterStores_first {H : Hkdf} (hH : HkdfOk H) (t0 now i : Nat) (key : List Byte) :
    AfterStores (keystore_set_session_key H (keystore_alloc t0) i key now).ks i i 1 := by
  obtain ⟨m, hm⟩ := hkdf_some hH (load_key key).val (keystore_alloc t0).salt MKEY_INFO
  have hst : ¬ (((keystore_alloc t0).keys (keystore_alloc t0).current).isset = true
      ∧ i < ((keystore_alloc t0).keys (keystore_alloc t0).current).index) := by
    simp [keystore_alloc, keyinfo.zero]
  have hf : find_key (keystore_alloc t0) i = none :=
    find_key_none_of (by simp [keystore_alloc, keyinfo.zero])
  rw [set_session_key_insert now hst hf hm]
  have hslot : insert_slot (keystore_alloc t0) i = 1 := by
    simp [insert_slot, keystore_alloc, next_slot]
  simp only [hslot]
  refine ⟨le_refl _, rfl, ?_, ?_, ?_, ?_, ?_, ?_, ?_⟩
  · simp [keystore_alloc]
  · rfl
  · simp
  · simp
  · simp
  · intro k
    by_cases hk : k = 1
    · simp [hk]
    · simp [hk, keystore_alloc, keyinfo.zero]
  · simp

theorem afterStores_next {H : Hkdf} (hH : HkdfOk H) {ks : keystore} {first last j : Nat}
    (h : AfterStores ks first last j) (now i : Nat) (key : List Byte) (hi : last < i) :
    AfterStores (keystore_set_session_key H ks i key now).ks first i (j + 1) := by
  obtain ⟨hj, hinit, hcur, hhead, hhset, hhidx, h1set, hle, hfirst⟩ := h
  obtain ⟨m, hm⟩ := hkdf_some hH (load_key key).val ks.salt MKEY_INFO
  have hcidx : (ks.keys ks.current).index ≤ last := by
    rw [hcur]; exact hle 1 h1set
  have hst : ¬ ((ks.keys ks.current).isset = true ∧ i < (ks.keys ks.current).index) := by
    intro hc; omega
  have hf : find_key ks i = none := by
    apply find_key_none_of
    intro k hk
    have := hle k hk.1
    omega
  have hslot : insert_slot ks i = next_slot ks.head := by
    unfold insert_slot
    rw [if_neg]
    intro hc
    omega
  have hval : (next_slot ks.head).val = (j + 1) % NUM_KEYS := by
    simp only [next_slot, hhead, NUM_KEYS]
    omega
  rw [set_session_key_insert now hst hf hm, hslot]
  simp only [hinit, if_true]
  refine ⟨by omega, rfl, hcur, hval, ?_, ?_, ?_, ?_, ?_⟩
  · simp
  · simp
  · by_cases hk : (1 : Fin NUM_KEYS) = next_slot ks.head
    · simp [← hk]
    · simp [hk, h1set]
  · intro k
    by_cases hk : k = next_slot ks.head
    · simp [hk]
    · simp only [hk, if_false]
      intro hs
      have := hle k hs
      omega
  · intro hj4
    have hne : (1 : Fin NUM_KEYS) ≠ next_slot ks.head := by
      intro hc
      have := congrArg Fin.val hc
      rw [hval] at this
      simp [NUM_KEYS] at this hj4
      omega
    simp only [hne, if_false]
    exact hfirst (by omega)

/-- Storing further keys with increasing indices keeps the description, one
step of `AfterStores` per key. -/
theorem afterStores_run {H : Hkdf} (hH : HkdfOk H) (now : Nat) :
    ∀ (rest : List (Nat × List Byte)) (ks : keystore) (first last j : Nat),
      AfterStores ks first last j →
      List.Chain (fun a b => a < b) last (rest.map Prod.fst) →
      ∀ (n : Nat) (a : Nat × List Byte), rest.get? n = some a →
        AfterStores (store_keys H now (rest.take (n + 1)) ks) first a.1 (j + n + 1) := by
  intro rest
  induction rest with
  | nil => intro ks first last j _ _ n a hn; simp at hn
  | cons b rest ih =>
    intro ks first last j hinv hch n a hn
    simp only [List.map_cons, List.chain_cons] at hch
    have hstep := afterStores_next hH hinv now b.1 b.2 hch.1
    cases n with
    | zero =>
      simp only [List.get?_cons_zero, Option.some.injEq] at hn
      subst hn
      simpa [store_keys] using hstep
    | succ n =>
      simp only [List.get?_cons_succ] at hn
      have := ih _ first b.1 (j + 1) hstep hch.2 n a hn
      simp only [List.take_succ_cons, store_keys]
      have e : j + (n + 1) + 1 = j + 1 + n + 1 := by omega
      rw [e]
      exact this

theorem afterStores_observe {ks : keystore} {first last j : Nat} (h : AfterStores ks first last j) :
    keystore_get_max_key ks = last
      ∧ (j ≤ NUM_KEYS →
          (keystore_get_current_session_key ks E2EE_SESSIONKEY_SIZE).index = some first) := by
  obtain ⟨_, _, hcur, _, _, hhidx, h1set, _, hfirst⟩ := h
  refine ⟨hhidx, ?_⟩
  intro hj
  simp [keystore_get_current_session_key, hcur, h1set, hfirst hj]

/-- C5, as stated, fails from the fifth key on: stored with increasing indices
1..5 and distinct keys in a fresh keystore, the fifth key lands in the ring
slot of the current key, and `keystore_get_current_session_key` returns index
5 (with the fifth key) instead of index 1. -/
theorem fifth_key_replaces_current :
    keystore_get_current_session_key
        (store_keys demo_hkdf 0
          [(1, demo_key 1), (2, demo_key 2), (3, demo_key 3), (4, demo_key 4), (5, demo_key 5)]
          (keystore_alloc 0)) E2EE_SESSIONKEY_SIZE
      = { err := Errno.OK, index := some 5, key := demo_key 5 } := by
  decide

/-- C5, amended: for a sequence of keys with strictly increasing indices stored
in a freshly created keystore with nothing in between (HKDF succeeding), after
each store `j` (counted from 1) `keystore_get_max_key` is the index `i_j` just
stored, and as long as `j ≤ NUM_KEYS` the index returned by
`keystore_get_current_session_key` is the first index `i_1`. -/
theorem increasing_keys_current_and_max (H : Hkdf) (hH : HkdfOk H) (t0 now : Nat)
    (adm : List (Nat × List Byte)) (first a : Nat × List Byte) (j : Nat)
    (hinc : List.Pairwise (fun x y => x < y) (adm.map Prod.fst))
    (hfirst : adm.head? = some first)
    (hj : 1 ≤ j) (ha : adm.get? (j - 1) = some a) :
    keystore_get_max_key (store_keys H now (adm.take j) (keystore_alloc t0)) = a.1
      ∧ (j ≤ NUM_KEYS →
          (keystore_get_current_session_key (store_keys H now (adm.take j) (keystore_alloc t0))
            E2EE_SESSIONKEY_SIZE).index = some first.1) := by
  cases adm with
  | nil => simp at ha
  | cons b rest =>
    simp only [List.head?_cons, Option.some.injEq] at hfirst
    subst hfirst
    have hch : List.Chain (fun x y => x < y) b.1 (rest.map Prod.fst) := by
      have := List.Pairwise.chain' hinc
      simpa [List.Chain'] using this
    have h1 := afterStores_first hH t0 now b.1 b.2
    obtain ⟨n, rfl⟩ : ∃ n, j = n + 1 := ⟨j - 1, by omega⟩
    simp only [Nat.add_sub_cancel] at ha
    cases n with
    | zero =>
      simp only [List.get?_cons_zero, Option.some.injEq] at ha
      subst ha
      simpa [store_keys] using afterStores_observe h1
    | succ n =>
      simp only [List.get?_cons_succ] at ha
      have h2 := afterStores_run hH now rest _ b.1 b.1 1 h1 hch n a ha
      have e : 1 + n + 1 = n + 1 + 1 := by omega
      rw [e] at h2
      simpa [store_keys] using afterStores_observe h2

theorem increasing_keys_current_and_max_witness :
    List.Pairwise (fun x y => x < y)
        ([(5, demo_key 0x11), (6, demo_key 0x22), (9, demo_key 0x33)].map Prod.fst)
      ∧ [(5, demo_key 0x11), (6, demo_key 0x22), (9, demo_key 0x33)].head?
          = some (5, demo_key 0x11)
      ∧ 1 ≤ 3
      ∧ [(5, demo_key 0x11), (6, demo_key 0x22), (9, demo_key 0x33)].get? (3 - 1)
          = some (9, demo_key 0x33)
      ∧ keystore_get_max_key
          (store_keys demo_hkdf 1
            ([(5, demo_key 0x11), (6, demo_key 0x22), (9, demo_key 0x33)].take 3)
            (keystore_alloc 0)) = 9
      ∧ (keystore_get_current_session_key
            (store_keys demo_hkdf 1
              ([(5, demo_key 0x11), (6, demo_key 0x22), (9, demo_key 0x33)].take 3)
              (keystore_alloc 0)) E2EE_SESSIONKEY_SIZE).index = some 5 :=
  have h := increasing_keys_current_and_max demo_hkdf demo_hkdf_ok 0 1
    [(5, demo_key 0x11), (6, demo_key 0x22), (9, demo_key 0x33)]
    (5, demo_key 0x11) (9, demo_key 0x33) 3 (by decide) rfl (by decide) rfl
  ⟨by decide, rfl, by decide, rfl, h.1, h.2 (by decide)⟩

/-- One iteration of the ratchet loop with both derivations succeeding. -/
theorem hash_loop_step {H : Hkdf} {ks : keystore} {h : Fin NUM_KEYS} {index : Nat} (fuel : Nat)
    {s mk : Key} (hlt : (ks.keys h).index < index)
    (hs : H (ks.keys h).skey.val ks.salt SKEY_INFO = some s)
    (hmk : H s.val ks.salt MKEY_INFO = some mk) :
    hash_to_key_loop H index (fuel + 1) ks h =
      hash_to_key_loop H index fuel
        (ks.set_key (next_slot h)
          { skey := s, mkey := mk, index := ((ks.keys h).index + 1) % U32_MOD, isset := true })
        (next_slot h) := by
  have hne : h ≠ next_slot h := fun hc => next_slot_ne h hc.symm
  conv_lhs => unfold hash_to_key_loop
  simp [hlt, keystore_derive_session_key, hs, keystore_derive_media_key, hmk, keystore.set_key,
    hne]

/-- The ratchet loop stops as soon as the slot at `h` has reached the target. -/
theorem hash_loop_done {H : Hkdf} {ks : keystore} {h : Fin NUM_KEYS} {index : Nat} (fuel : Nat)
    (hge : ¬ (ks.keys h).index < index) :
    hash_to_key_loop H index (fuel + 1) ks h = some (Errno.OK, { ks with head := h }) := by
  conv_lhs => unfold hash_to_key_loop
  simp [hge]

/-- The ratchet loop from slot `h`, `d` indices below the target: it finishes
within `d + 1` units of fuel, and the facts listed hold of the final state. -/
theorem hash_loop_run {H : Hkdf} (hH : HkdfOk H) {index : Nat} (hidx : index < U32_MOD) :
    ∀ (d fuel : Nat) (ks : keystore) (h : Fin NUM_KEYS), d < fuel →
      (ks.keys h).index + d = index →
      ∃ ks1, hash_to_key_loop H index fuel ks h = some (Errno.OK, ks1)
        ∧ ks1 = { ks with keys := ks1.keys, head := ks1.head }
        ∧ ks1.head.val = (h.val + d) % NUM_KEYS
        ∧ (ks1.keys ks1.head).index = index
        ∧ ((ks.keys h).isset = true → (ks1.keys ks1.head).isset = true)
        ∧ ratchet_keys H ks.salt d (ks.keys h).skey = some (ks1.keys ks1.head).skey
        ∧ ((0 < d ∨ media_key_of H ks.salt (ks.keys h).skey = some (ks.keys h).mkey) →
            media_key_of H ks.salt (ks1.keys ks1.head).skey = some (ks1.keys ks1.head).mkey)
        ∧ (∀ c, (ks.keys c).index < index → (ks1.keys c).index < index ∨ c = ks1.head) := by
  intro d
  induction d with
  | zero =>
    intro fuel ks h hfuel hd
    obtain ⟨f, rfl⟩ : ∃ f, fuel = f + 1 := ⟨fuel - 1, by omega⟩
    have hge : ¬ (ks.keys h).index < index := by omega
    refine ⟨{ ks with head := h }, hash_loop_done f hge, rfl, by simp [NUM_KEYS]; omega, by simpa using hd,
      fun hs => hs, rfl, ?_, ?_⟩
    · intro hm
      rcases hm with hm | hm
      · omega
      · exact hm
    · intro c hc
      exact Or.inl hc
  | succ d ih =>
    intro fuel ks h hfuel hd
    obtain ⟨f, rfl⟩ : ∃ f, fuel = f + 1 := ⟨fuel - 1, by omega⟩
    have hlt : (ks.keys h).index < index := by omega
    obtain ⟨s, hs⟩ := hkdf_some hH (ks.keys h).skey.val ks.salt SKEY_INFO
    obtain ⟨mk, hmk⟩ := hkdf_some hH s.val ks.salt MKEY_INFO
    have hmod : ((ks.keys h).index + 1) % U32_MOD = (ks.keys h).index + 1 :=
      Nat.mod_eq_of_lt (by omega)
    rw [hash_loop_step f hlt hs hmk, hmod]
    obtain ⟨ks1, hrun, hframe, hhead, hindex, hisset, hkeys, hmedia, hothers⟩ :=
      ih f (ks.set_key (next_slot h)
        { skey := s, mkey := mk, index := (ks.keys h).index + 1, isset := true })
        (next_slot h) (by omega) (by simp; omega)
    refine ⟨ks1, hrun, ?_, ?_, hindex, ?_, ?_, ?_, ?_⟩
    · rw [hframe]
      simp [keystore.set_key]
    · rw [hhead]
      simp only [next_slot, NUM_KEYS]
      omega
    · intro _
      exact hisset (by simp)
    · simp only [ratchet_keys, ratchet_key, hs, Option.some_bind]
      simpa using hkeys
    · intro _
      apply hmedia
      right
      simpa [media_key_of] using hmk
    · intro c hc
      by_cases hcn : c = next_slot h
      · subst hcn
        by_cases hd0 : d = 0
        · right
          apply Fin.ext
          rw [hhead, hd0]
          simp [NUM_KEYS]
          omega
        · exact hothers _ (by simp; omega)
      · exact hothers c (by simpa [hcn] using hc)

/-- The ratchet branch of `keystore_get_media_key`: the index is held by no set
slot and lies `d` above the index of the set head slot, `1 ≤ d < NUM_KEYS`,
with no 32-bit overflow in the window bound. -/
theorem get_media_key_ratchet {H : Hkdf} (hH : HkdfOk H) {ks : keystore} {m d : Nat} (ksz : Nat)
    (hset : (ks.keys ks.head).isset = true) (hm : (ks.keys ks.head).index = m)
    (hd1 : 1 ≤ d) (hd3 : d < NUM_KEYS) (hbound : m + NUM_KEYS < U32_MOD)
    (hnone : find_key ks (m + d) = none) :
    ∃ r, keystore_get_media_key H ks (m + d) ksz = some r ∧ r.err = Errno.OK
      ∧ r.ks.head.val = (ks.head.val + d) % NUM_KEYS
      ∧ (r.ks.keys r.ks.head).index = m + d
      ∧ (r.ks.keys r.ks.head).isset = true
      ∧ ratchet_keys H ks.salt d (ks.keys ks.head).skey = some (r.ks.keys r.ks.head).skey
      ∧ media_key_of H ks.salt (r.ks.keys r.ks.head).skey = some (r.ks.keys r.ks.head).mkey
      ∧ r.key = read_key (r.ks.keys r.ks.head).mkey ksz
      ∧ ((ks.keys ks.current).index ≤ m → r.ks.current = r.ks.head) := by
  have hidx : m + d < U32_MOD := by simp only [NUM_KEYS] at hd3 hbound; omega
  obtain ⟨ks1, hrun, hframe, hhead, hindex, hisset, hkeys, hmedia, hothers⟩ :=
    hash_loop_run hH hidx d U32_MOD ks ks.head (by omega) (by omega)
  have hwin : (ks.keys ks.head).isset = true ∧ m + d > (ks.keys ks.head).index
      ∧ m + d < ((ks.keys ks.head).index + NUM_KEYS) % U32_MOD := by
    rw [hm, Nat.mod_eq_of_lt hbound]
    exact ⟨hset, by omega, by omega⟩
  have hcur : ks1.current = ks.current := by rw [hframe]
  unfold keystore_get_media_key
  simp only [hnone, hwin, and_self, if_true, keystore_hash_to_key, hrun]
  simp only [ne_eq, not_true_eq_false, if_false]
  refine ⟨_, rfl, rfl, ?_, ?_, ?_, ?_, ?_, ?_, ?_⟩
  · split <;> exact hhead
  · split <;> exact hindex
  · split <;> exact hisset hset
  · split <;> exact hkeys
  · split <;> exact hmedia (Or.inl (by omega))
  · dsimp only
    split <;> rfl
  · intro hc
    split
    · rfl
    · rename_i hnot
      rcases hothers ks.current (by omega) with h1 | h1
      · rw [hcur] at hnot
        omega
      · rw [hcur]
        exact h1

/-- C8: write `R` for one ratchet step and `M` for the media key derivation,
both with the keystore salt. When the head slot is set with index `m`
(`m + 4 < 2^32`) and session key `S`, the index of the current slot is at most
`m`, `d` is 1, 2 or 3 and no set slot holds index `m + d`, then (HKDF
succeeding, `Sd = R^d(S)`, `Md = M(Sd)`) `keystore_get_media_key` for `m + d`
returns success with the key `Md`; afterwards `keystore_get_max_key` is
`m + d`, `keystore_get_current_session_key` returns `(m + d, Sd)`, and
`current` equals `head`. -/
theorem media_key_on_demand_ratchet (H : Hkdf) (hH : HkdfOk H) (ks : keystore) (m d : Nat)
    (S Sd Md : Key)
    (hset : (ks.keys ks.head).isset = true) (hm : (ks.keys ks.head).index = m)
    (hS : (ks.keys ks.head).skey = S) (hbound : m + 4 < U32_MOD)
    (hcur : (ks.keys ks.current).index ≤ m)
    (hd : d = 1 ∨ d = 2 ∨ d = 3)
    (hfree : ∀ k, ¬ ((ks.keys k).isset = true ∧ (ks.keys k).index = m + d))
    (hSd : ratchet_keys H ks.salt d S = some Sd)
    (hMd : media_key_of H ks.salt Sd = some Md) :
    (keystore_get_media_key H ks (m + d) E2EE_SESSIONKEY_SIZE).map (fun r => (r.err, r.key))
        = some (Errno.OK, Md.val)
      ∧ (keystore_get_media_key H ks (m + d) E2EE_SESSIONKEY_SIZE).map
          (fun r => keystore_get_max_key r.ks) = some (m + d)
      ∧ (keystore_get_media_key H ks (m + d) E2EE_SESSIONKEY_SIZE).map
          (fun r => keystore_get_current_session_key r.ks E2EE_SESSIONKEY_SIZE)
        = some { err := Errno.OK, index := some (m + d), key := Sd.val }
      ∧ (keystore_get_media_key H ks (m + d) E2EE_SESSIONKEY_SIZE).map
          (fun r => decide (r.ks.current = r.ks.head)) = some true := by
  obtain ⟨r, hr, herr, _, hindex, hisset, hkeys, hmedia, hkey, hcurrent⟩ :=
    get_media_key_ratchet hH E2EE_SESSIONKEY_SIZE hset hm (by omega)
      (by simp only [NUM_KEYS]; omega) hbound (find_key_none_of hfree)
  rw [hS, hSd, Option.some.injEq] at hkeys
  rw [← hkeys, hMd, Option.some.injEq] at hmedia
  have hc := hcurrent hcur
  rw [hr]
  simp only [Option.map_some', Option.some.injEq, Prod.mk.injEq]
  refine ⟨⟨herr, ?_⟩, hindex, ?_, by simpa using hc⟩
  · rw [hkey, ← hmedia, read_key_full]
  · simp [keystore_get_current_session_key, hc, hisset, hindex, ← hkeys, read_key_full]

theorem media_key_on_demand_ratchet_witness :
    (demo_s2.keys demo_s2.head).isset = true ∧ (demo_s2.keys demo_s2.head).index = 6
      ∧ (demo_s2.keys demo_s2.head).skey = demo_key32 0x22 ∧ 6 + 4 < U32_MOD
      ∧ (demo_s2.keys demo_s2.current).index ≤ 6
      ∧ ratchet_keys demo_hkdf demo_s2.salt 3 (demo_key32 0x22)
          = some (load_key (115 :: 115 :: 115 :: demo_key 0x22))
      ∧ media_key_of demo_hkdf demo_s2.salt (load_key (115 :: 115 :: 115 :: demo_key 0x22))
          = some (load_key (109 :: 115 :: 115 :: 115 :: demo_key 0x22))
      ∧ (keystore_get_media_key demo_hkdf demo_s2 (6 + 3) E2EE_SESSIONKEY_SIZE).map
          (fun r => (r.err, r.key))
        = some (Errno.OK, (load_key (109 :: 115 :: 115 :: 115 :: demo_key 0x22)).val)
      ∧ (keystore_get_media_key demo_hkdf demo_s2 (6 + 3) E2EE_SESSIONKEY_SIZE).map
          (fun r => keystore_get_max_key r.ks) = some (6 + 3)
      ∧ (keystore_get_media_key demo_hkdf demo_s2 (6 + 3) E2EE_SESSIONKEY_SIZE).map
          (fun r => keystore_get_current_session_key r.ks E2EE_SESSIONKEY_SIZE)
        = some { err := Errno.OK, index := some (6 + 3),
                 key := (load_key (115 :: 115 :: 115 :: demo_key 0x22)).val }
      ∧ (keystore_get_media_key demo_hkdf demo_s2 (6 + 3) E2EE_SESSIONKEY_SIZE).map
          (fun r => decide (r.ks.current = r.ks.head)) = some true :=
  ⟨by decide, by decide, by decide, by decide, by decide, by decide, by decide,
    media_key_on_demand_ratchet demo_hkdf demo_hkdf_ok demo_s2 6 3 (demo_key32 0x22)
      (load_key (115 :: 115 :: 115 :: demo_key 0x22))
      (load_key (109 :: 115 :: 115 :: 115 :: demo_key 0x22))
      (by decide) (by decide) (by decide) (by decide) (by decide) (by decide) (by decide)
      (by decide) (by decide)⟩

/-- C6, as stated, fails in two reachable states with `current == head` and the
current slot set. (1) After `keystore_rotate` on a fresh keystore the current
slot holds index 1 but `init` is false: storing index 2 then moves `current`,
and `keystore_get_current_session_key` returns index 2, not 1. (2) After
storing 5, 6, 7, 9, then 8, and rotating, `current == head` is at index 8 while
an older slot still holds index 9: storing a new key under 9 overwrites that
slot in place, `head` stays, and `keystore_get_next_session_key` returns
`ENOENT`. -/
theorem next_key_not_always_previewed :
    (run_ops demo_hkdf [Op.rotate] (keystore_alloc 0)).map
        (fun ks =>
          (decide (ks.current = ks.head), (ks.keys ks.current).isset,
            (keystore_get_current_session_key ks E2EE_SESSIONKEY_SIZE).index,
            (keystore_get_current_session_key
              (keystore_set_session_key demo_hkdf ks 2 (demo_key 0x22) 1).ks
              E2EE_SESSIONKEY_SIZE).index))
        = some (true, true, some 1, some 2)
      ∧ (run_ops demo_hkdf
          [Op.set_session_key 5 (demo_key 0x11) 1, Op.set_session_key 6 (demo_key 0x22) 2,
            Op.set_session_key 7 (demo_key 0x33) 3, Op.set_session_key 9 (demo_key 0x44) 4,
            Op.set_session_key 8 (demo_key 0x55) 5, Op.rotate] (keystore_alloc 0)).map
        (fun ks =>
          (decide (ks.current = ks.head), (ks.keys ks.current).isset,
            (keystore_get_current_session_key ks E2EE_SESSIONKEY_SIZE).index,
            (keystore_set_session_key demo_hkdf ks 9 (demo_key 0x66) 6).err,
            (keystore_get_next_session_key
              (keystore_set_session_key demo_hkdf ks 9 (demo_key 0x66) 6).ks
              E2EE_SESSIONKEY_SIZE).err))
        = some (true, true, some 8, Errno.OK, Errno.ENOENT) := by
  decide

/-- C6, amended: in a state with `init` true, `current == head`, the current
slot set with `(i, K)` and no set slot holding index `j`, storing the 32-byte
key `K2` under `j > i` (HKDF succeeding) leaves
`keystore_get_current_session_key` returning `(i, K)` and makes
`keystore_get_next_session_key` return `(j, K2)`; a following `keystore_rotate`
returns success and leaves all slots as they are (no ratchet step), after which
`keystore_get_current_session_key` returns what
`keystore_get_next_session_key` returned before the rotation,
`keystore_get_next_session_key` returns `ENOENT` and `keystore_get_max_key` is
`j`. -/
theorem next_key_then_rotate (H : Hkdf) (hH : HkdfOk H) (ks : keystore) (i j : Nat) (K K2 : Key)
    (now : Nat)
    (hinit : ks.init = true) (hch : ks.current = ks.head)
    (hset : (ks.keys ks.current).isset = true)
    (hi : (ks.keys ks.current).index = i) (hK : (ks.keys ks.current).skey = K)
    (hj : i < j)
    (hfree : ∀ k, ¬ ((ks.keys k).isset = true ∧ (ks.keys k).index = j)) :
    keystore_get_current_session_key (keystore_set_session_key H ks j K2.val now).ks
        E2EE_SESSIONKEY_SIZE = { err := Errno.OK, index := some i, key := K.val }
      ∧ keystore_get_next_session_key (keystore_set_session_key H ks j K2.val now).ks
        E2EE_SESSIONKEY_SIZE = { err := Errno.OK, index := some j, key := K2.val }
      ∧ (keystore_rotate H (keystore_set_session_key H ks j K2.val now).ks).map
          (fun r => r.err) = some Errno.OK
      ∧ (keystore_rotate H (keystore_set_session_key H ks j K2.val now).ks).map
          (fun r => r.ks.keys) = some (keystore_set_session_key H ks j K2.val now).ks.keys
      ∧ (keystore_rotate H (keystore_set_session_key H ks j K2.val now).ks).map
          (fun r => keystore_get_current_session_key r.ks E2EE_SESSIONKEY_SIZE)
        = some (keystore_get_next_session_key (keystore_set_session_key H ks j K2.val now).ks
            E2EE_SESSIONKEY_SIZE)
      ∧ (keystore_rotate H (keystore_set_session_key H ks j K2.val now).ks).map
          (fun r => (keystore_get_next_session_key r.ks E2EE_SESSIONKEY_SIZE).err)
        = some Errno.ENOENT
      ∧ (keystore_rotate H (keystore_set_session_key H ks j K2.val now).ks).map
          (fun r => keystore_get_max_key r.ks) = some j := by
  obtain ⟨m, hm⟩ := hkdf_some hH (load_key K2.val).val ks.salt MKEY_INFO
  have hst : ¬ ((ks.keys ks.current).isset = true ∧ j < (ks.keys ks.current).index) := by
    intro hc; omega
  have hf : find_key ks j = none := find_key_none_of hfree
  have hslot : insert_slot ks j = next_slot ks.head := by
    unfold insert_slot
    rw [if_neg]
    intro hc
    exact hc.1 hch.symm
  have hne : ks.head ≠ next_slot ks.head := fun hc => next_slot_ne ks.head hc.symm
  have hne2 : next_slot ks.head ≠ ks.head := next_slot_ne ks.head
  rw [set_session_key_insert now hst hf hm, hslot]
  rw [hch] at hset hi hK
  simp [keystore_get_current_session_key, keystore_get_next_session_key, keystore_rotate,
    keystore_get_max_key, hinit, hch, hne, hne2, hset, hi, hK, read_key_full, load_key_val]

theorem next_key_then_rotate_witness :
    demo_s1.init = true ∧ demo_s1.current = demo_s1.head
      ∧ (demo_s1.keys demo_s1.current).isset = true
      ∧ (demo_s1.keys demo_s1.current).index = 5
      ∧ (demo_s1.keys demo_s1.current).skey = demo_key32 0x11
      ∧ 5 < 6
      ∧ keystore_get_current_session_key
          (keystore_set_session_key demo_hkdf demo_s1 6 (demo_key32 0x22).val 3).ks
          E2EE_SESSIONKEY_SIZE
        = { err := Errno.OK, index := some 5, key := (demo_key32 0x11).val }
      ∧ keystore_get_next_session_key
          (keystore_set_session_key demo_hkdf demo_s1 6 (demo_key32 0x22).val 3).ks
          E2EE_SESSIONKEY_SIZE
        = { err := Errno.OK, index := some 6, key := (demo_key32 0x22).val }
      ∧ (keystore_rotate demo_hkdf
          (keystore_set_session_key demo_hkdf demo_s1 6 (demo_key32 0x22).val 3).ks).map
          (fun r => r.err) = some Errno.OK
      ∧ (keystore_rotate demo_hkdf
          (keystore_set_session_key demo_hkdf demo_s1 6 (demo_key32 0x22).val 3).ks).map
          (fun r => keystore_get_current_session_key r.ks E2EE_SESSIONKEY_SIZE)
        = some (keystore_get_next_session_key
            (keystore_set_session_key demo_hkdf demo_s1 6 (demo_key32 0x22).val 3).ks
            E2EE_SESSIONKEY_SIZE)
      ∧ (keystore_rotate demo_hkdf
          (keystore_set_session_key demo_hkdf demo_s1 6 (demo_key32 0x22).val 3).ks).map
          (fun r => (keystore_get_next_session_key r.ks E2EE_SESSIONKEY_SIZE).err)
        = some Errno.ENOENT
      ∧ (keystore_rotate demo_hkdf
          (keystore_set_session_key demo_hkdf demo_s1 6 (demo_key32 0x22).val 3).ks).map
          (fun r => keystore_get_max_key r.ks) = some 6 :=
  have h := next_key_then_rotate demo_hkdf demo_hkdf_ok demo_s1 5 6 (demo_key32 0x11)
    (demo_key32 0x22) 3 (by decide) (by decide) (by decide) (by decide) (by decide) (by decide)
    (by decide)
  ⟨by decide, by decide, by decide, by decide, by decide, by decide, h.1, h.2.1, h.2.2.1,
    h.2.2.2.2.1, h.2.2.2.2.2.1, h.2.2.2.2.2.2⟩

/-- The lookup returns the first set slot, in scan order, that holds the index. -/
theorem find_key_first {ks : keystore} {i : Nat} {n : Fin NUM_KEYS}
    (hn : (ks.keys n).isset = true ∧ (ks.keys n).index = i)
    (hbefore : ∀ k, k < n → ¬ ((ks.keys k).isset = true ∧ (ks.keys k).index = i)) :
    find_key ks i = some n := by
  rw [find_key_unroll]
  match n, hn, hbefore with
  | 0, hn, _ => rw [if_pos hn]
  | 1, hn, hb => rw [if_neg (hb 0 (by decide)), if_pos hn]
  | 2, hn, hb => rw [if_neg (hb 0 (by decide)), if_neg (hb 1 (by decide)), if_pos hn]
  | 3, hn, hb =>
    rw [if_neg (hb 0 (by decide)), if_neg (hb 1 (by decide)), if_neg (hb 2 (by decide)),
      if_pos hn]

/-- A single ratchet step of `keystore_hash_to_key`, to the index just above the head. -/
theorem hash_to_key_one_step {H : Hkdf} {ks : keystore} {m : Nat} {s mk : Key}
    (hm : (ks.keys ks.head).index = m) (hbound : m + 1 < U32_MOD)
    (hs : H (ks.keys ks.head).skey.val ks.salt SKEY_INFO = some s)
    (hmk : H s.val ks.salt MKEY_INFO = some mk) :
    keystore_hash_to_key H ks (m + 1) =
      some (Errno.OK,
        { ks.set_key (next_slot ks.head) { skey := s, mkey := mk, index := m + 1, isset := true }
          with head := next_slot ks.head }) := by
  unfold keystore_hash_to_key
  show hash_to_key_loop H (m + 1) (4294967294 + 1 + 1) ks ks.head = _
  rw [hash_loop_step _ (by omega) hs hmk, hash_loop_done]
  · rw [hm, Nat.mod_eq_of_lt hbound]
  · simp [hm, Nat.mod_eq_of_lt hbound]

/-- C7, as stated, fails in two reachable states with `current == head` and the
head slot set. (1) After storing 5, 6, 7, 9, then 8, and rotating, the head is
at index 8 with key `0x55...` while slot 0 still holds index 9 with the stored
key `0x44...`: `keystore_rotate` ratchets index 9 into slot 3, but
`keystore_get_media_key` for 9 finds slot 0 first and returns the media key of
`0x44...`, not of the ratcheted key. (2) With the head at index `2^32 - 1` the
target `index + 1` wraps to 0: `keystore_rotate` returns success without a
ratchet step and `keystore_get_max_key` stays `2^32 - 1`. -/
theorem rotate_ratchet_not_always_served :
    (run_ops demo_hkdf
        [Op.set_session_key 5 (demo_key 0x11) 1, Op.set_session_key 6 (demo_key 0x22) 2,
          Op.set_session_key 7 (demo_key 0x33) 3, Op.set_session_key 9 (demo_key 0x44) 4,
          Op.set_session_key 8 (demo_key 0x55) 5, Op.rotate] (keystore_alloc 0)).map
        (fun ks =>
          (decide (ks.current = ks.head), (ks.keys ks.head).isset, (ks.keys ks.head).index,
            (ks.keys ks.head).skey.val))
        = some (true, true, 8, demo_key 0x55)
      ∧ (run_ops demo_hkdf
        [Op.set_session_key 5 (demo_key 0x11) 1, Op.set_session_key 6 (demo_key 0x22) 2,
          Op.set_session_key 7 (demo_key 0x33) 3, Op.set_session_key 9 (demo_key 0x44) 4,
          Op.set_session_key 8 (demo_key 0x55) 5, Op.rotate, Op.rotate] (keystore_alloc 0)).bind
        (fun ks =>
          (keystore_get_media_key demo_hkdf ks 9 E2EE_SESSIONKEY_SIZE).map
            (fun g => (keystore_get_max_key ks, g.err, g.key)))
        = some (9, Errno.OK, (load_key (109 :: demo_key 0x44)).val)
      ∧ (load_key (109 :: demo_key 0x44)).val ≠ (load_key (109 :: 115 :: demo_key 0x55)).val
      ∧ (run_ops demo_hkdf [Op.set_session_key 4294967295 (demo_key 0x11) 1]
          (keystore_alloc 0)).map
        (fun ks =>
          (decide (ks.current = ks.head), (ks.keys ks.head).isset, (ks.keys ks.head).index,
            (keystore_rotate demo_hkdf ks).map (fun r => (r.err, keystore_get_max_key r.ks))))
        = some (true, true, 4294967295, some (Errno.OK, 4294967295)) := by
  refine ⟨?_, ?_, ?_, ?_⟩ <;> decide

/-- C7, amended: in a state with `current == head` whose head slot is set with
index `m`, `m + 1 < 2^32`, and session key `S`, where no set slot scanned
before slot `(head + 1) mod NUM_KEYS` holds index `m + 1`, `keystore_rotate`
returns success (HKDF succeeding, `S1 = HKDF(S, salt, "session_key")`,
`M1 = HKDF(S1, salt, "media_key")`), `keystore_get_max_key` afterwards is
`m + 1`, and `keystore_get_media_key` for `m + 1` then returns `M1`. -/
theorem rotate_ratchets_one_step (H : Hkdf) (ks : keystore) (m : Nat) (S S1 M1 : Key)
    (hch : ks.current = ks.head)
    (_hset : (ks.keys ks.head).isset = true) (hm : (ks.keys ks.head).index = m)
    (hS : (ks.keys ks.head).skey = S) (hbound : m + 1 < U32_MOD)
    (hfree : ∀ k, k < next_slot ks.head →
      ¬ ((ks.keys k).isset = true ∧ (ks.keys k).index = m + 1))
    (hS1 : ratchet_key H ks.salt S = some S1)
    (hM1 : media_key_of H ks.salt S1 = some M1) :
    (keystore_rotate H ks).map (fun r => r.err) = some Errno.OK
      ∧ (keystore_rotate H ks).map (fun r => keystore_get_max_key r.ks) = some (m + 1)
      ∧ (keystore_rotate H ks).bind (fun r =>
          (keystore_get_media_key H r.ks (m + 1) E2EE_SESSIONKEY_SIZE).map
            (fun g => (g.err, g.key))) = some (Errno.OK, M1.val) := by
  have hs : H (ks.keys ks.head).skey.val ks.salt SKEY_INFO = some S1 := by
    rw [hS]; exact hS1
  have hmk : H S1.val ks.salt MKEY_INFO = some M1 := hM1
  have hrot : keystore_rotate H ks = some
      { err := Errno.OK
        ks := { ks.set_key (next_slot ks.head)
                  { skey := S1, mkey := M1, index := m + 1, isset := true }
                with head := next_slot ks.head, current := next_slot ks.head }
        fired := ks.listeners } := by
    unfold keystore_rotate
    rw [if_pos hch, hm, Nat.mod_eq_of_lt hbound, hash_to_key_one_step hm hbound hs hmk]
    simp
  have hfind : find_key
      { ks.set_key (next_slot ks.head) { skey := S1, mkey := M1, index := m + 1, isset := true }
        with head := next_slot ks.head, current := next_slot ks.head } (m + 1)
      = some (next_slot ks.head) := by
    apply find_key_first
    · simp
    · intro k hk
      have hne : k ≠ next_slot ks.head := ne_of_lt hk
      simpa [hne] using hfree k hk
  rw [hrot]
  refine ⟨rfl, ?_, ?_⟩
  · simp [keystore_get_max_key]
  · simp only [Option.some_bind]
    unfold keystore_get_media_key
    rw [hfind]
    simp [read_key_full]

theorem rotate_ratchets_one_step_witness :
    demo_s1.current = demo_s1.head ∧ (demo_s1.keys demo_s1.head).isset = true
      ∧ (demo_s1.keys demo_s1.head).index = 5
      ∧ (demo_s1.keys demo_s1.head).skey = demo_key32 0x11 ∧ 5 + 1 < U32_MOD
      ∧ ratchet_key demo_hkdf demo_s1.salt (demo_key32 0x11)
          = some (load_key (115 :: demo_key 0x11))
      ∧ media_key_of demo_hkdf demo_s1.salt (load_key (115 :: demo_key 0x11))
          = some (load_key (109 :: 115 :: demo_key 0x11))
      ∧ (keystore_rotate demo_hkdf demo_s1).map (fun r => r.err) = some Errno.OK
      ∧ (keystore_rotate demo_hkdf demo_s1).map (fun r => keystore_get_max_key r.ks)
          = some (5 + 1)
      ∧ (keystore_rotate demo_hkdf demo_s1).bind (fun r =>
          (keystore_get_media_key demo_hkdf r.ks (5 + 1) E2EE_SESSIONKEY_SIZE).map
            (fun g => (g.err, g.key)))
        = some (Errno.OK, (load_key (109 :: 115 :: demo_key 0x11)).val) :=
  ⟨by decide, by decide, by decide, by decide, by decide, by decide, by decide,
    rotate_ratchets_one_step demo_hkdf demo_s1 5 (demo_key32 0x11)
      (load_key (115 :: demo_key 0x11)) (load_key (109 :: 115 :: demo_key 0x11))
      (by decide) (by decide) (by decide) (by decide) (by decide) (by decide) (by decide)
      (by decide)⟩

/-- C9, as stated, fails in reachable states. (1) After storing 5, 6, 7, 9 and
then 8 the head is at index 8 while slot 0 still holds index 9:
`keystore_get_media_key` for `8 + 1` is served from slot 0 and
`keystore_get_max_key` stays 8. (2) After storing 5, 6, 7, 20 and then 8 the
head is at index 8 while slot 0 still holds index 20:
`keystore_get_media_key` for `8 + 12` returns success and moves `current` to
slot 0. (3) After storing `2^32 - 2` in a fresh keystore, the window bound
`index + NUM_KEYS` wraps to 2 and `keystore_get_media_key` for `2^32 - 1`
returns `ENOENT`. -/
theorem ratchet_window_not_on_reachable :
    (run_ops demo_hkdf
        [Op.set_session_key 5 (demo_key 0x11) 1, Op.set_session_key 6 (demo_key 0x22) 2,
          Op.set_session_key 7 (demo_key 0x33) 3, Op.set_session_key 9 (demo_key 0x44) 4,
          Op.set_session_key 8 (demo_key 0x55) 5] (keystore_alloc 0)).map
        (fun ks =>
          ((ks.keys ks.head).isset, (ks.keys ks.head).index,
            (keystore_get_media_key demo_hkdf ks (8 + 1) E2EE_SESSIONKEY_SIZE).map
              (fun g => (g.err, keystore_get_max_key g.ks))))
        = some (true, 8, some (Errno.OK, 8))
      ∧ (run_ops demo_hkdf
        [Op.set_session_key 5 (demo_key 0x11) 1, Op.set_session_key 6 (demo_key 0x22) 2,
          Op.set_session_key 7 (demo_key 0x33) 3, Op.set_session_key 20 (demo_key 0x44) 4,
          Op.set_session_key 8 (demo_key 0x55) 5] (keystore_alloc 0)).map
        (fun ks =>
          ((ks.keys ks.head).isset, (ks.keys ks.head).index, ks.current.val,
            (keystore_get_media_key demo_hkdf ks (8 + 12) E2EE_SESSIONKEY_SIZE).map
              (fun g => (g.err, g.ks.current.val))))
        = some (true, 8, 1, some (Errno.OK, 0))
      ∧ (run_ops demo_hkdf [Op.set_session_key 4294967294 (demo_key 0x11) 1]
          (keystore_alloc 0)).map
        (fun ks =>
          ((ks.keys ks.head).isset, (ks.keys ks.head).index,
            (keystore_get_media_key demo_hkdf ks (4294967294 + 1) E2EE_SESSIONKEY_SIZE).map
              (fun g => g.err)))
        = some (true, 4294967294, some Errno.ENOENT) := by
  refine ⟨?_, ?_, ?_⟩ <;> decide

/-- C9, amended: in every state (reachable or not) whose head slot is set with
index `m`, for `d ≥ 1` with `m + d` a 32-bit index that no set slot holds
(HKDF succeeding): if `d ≤ 3` and `m + 4 < 2^32`, `keystore_get_media_key` for
`m + d` returns success, afterwards `keystore_get_max_key` is `m + d` and
`head` has moved `d` ring positions; if `d ≥ 4` it returns `ENOENT` and leaves
the whole keystore, in particular `head`, `current` and every slot, as it
was. -/
theorem media_key_ratchet_window (H : Hkdf) (hH : HkdfOk H) (ks : keystore) (m d ksz : Nat)
    (hset : (ks.keys ks.head).isset = true) (hm : (ks.keys ks.head).index = m)
    (hd : 1 ≤ d) (hidx : m + d < U32_MOD)
    (hfree : ∀ k, ¬ ((ks.keys k).isset = true ∧ (ks.keys k).index = m + d)) :
    (d ≤ 3 → m + 4 < U32_MOD →
        (keystore_get_media_key H ks (m + d) ksz).map
          (fun r => (r.err, keystore_get_max_key r.ks, r.ks.head.val))
          = some (Errno.OK, m + d, (ks.head.val + d) % NUM_KEYS))
      ∧ (4 ≤ d →
        (keystore_get_media_key H ks (m + d) ksz).map (fun r => r.err) = some Errno.ENOENT
          ∧ (keystore_get_media_key H ks (m + d) ksz).map (fun r => r.ks) = some ks) := by
  have hnone : find_key ks (m + d) = none := find_key_none_of hfree
  constructor
  · intro hd3 hbound
    obtain ⟨r, hr, herr, hhead, hindex, _⟩ :=
      get_media_key_ratchet hH ksz hset hm hd (by simp only [NUM_KEYS]; omega) hbound hnone
    rw [hr]
    simp [herr, hhead, keystore_get_max_key, hindex]
  · intro hd4
    have hwin : ¬ ((ks.keys ks.head).isset = true ∧ m + d > (ks.keys ks.head).index
        ∧ m + d < ((ks.keys ks.head).index + NUM_KEYS) % U32_MOD) := by
      rw [hm, Nat.mod_eq_of_lt (by simp only [NUM_KEYS]; omega)]
      simp only [NUM_KEYS]
      omega
    unfold keystore_get_media_key
    simp only [hnone]
    rw [if_neg hwin]
    exact ⟨rfl, rfl⟩

theorem media_key_ratchet_window_witness :
    (demo_s2.keys demo_s2.head).isset = true ∧ (demo_s2.keys demo_s2.head).index = 6
      ∧ 1 ≤ 2 ∧ 6 + 2 < U32_MOD
      ∧ (keystore_get_media_key demo_hkdf demo_s2 (6 + 2) 32).map
          (fun r => (r.err, keystore_get_max_key r.ks, r.ks.head.val))
          = some (Errno.OK, 6 + 2, (demo_s2.head.val + 2) % NUM_KEYS) :=
  ⟨by decide, by decide, by decide, by decide,
    (media_key_ratchet_window demo_hkdf demo_hkdf_ok demo_s2 6 2 32 (by decide) (by decide)
      (by decide) (by decide) (by decide)).1 (by decide) (by decide)⟩

/-- Both ways in which `keystore_rotate` can end leave a changed current key
notified: on failure the current slot is untouched. -/
theorem rotate_fires_or_keeps_current {H : Hkdf} {ks : keystore} {r : OpResult} (ksz : Nat)
    (hr : keystore_rotate H ks = some r) :
    r.fired = ks.listeners
      ∨ keystore_get_current_session_key r.ks ksz = keystore_get_current_session_key ks ksz := by
  unfold keystore_rotate at hr
  by_cases hch : ks.current = ks.head
  · rw [if_pos hch] at hr
    unfold keystore_hash_to_key at hr
    have hfuel : U32_MOD = 4294967294 + 1 + 1 := rfl
    rw [hfuel] at hr
    by_cases hlt : (ks.keys ks.head).index < ((ks.keys ks.head).index + 1) % (4294967294 + 1 + 1)
    · have hne : ks.head ≠ next_slot ks.head := fun hc => next_slot_ne ks.head hc.symm
      cases hs : H (ks.keys ks.head).skey.val ks.salt SKEY_INFO with
      | none =>
        right
        conv at hr => lhs; unfold hash_to_key_loop
        simp [hlt, keystore_derive_session_key, hs] at hr
        rw [← hr]
      | some s =>
        cases hmk : H s.val ks.salt MKEY_INFO with
        | none =>
          right
          conv at hr => lhs; unfold hash_to_key_loop
          simp [hlt, keystore_derive_session_key, hs, keystore_derive_media_key, hmk] at hr
          rw [← hr]
          simp [keystore_get_current_session_key, hch, hne]
        | some mk =>
          left
          rw [hash_loop_step _ hlt hs hmk, hash_loop_done] at hr
          · simp at hr
            rw [← hr]
          · simp
    · left
      rw [hash_loop_done _ hlt] at hr
      simp at hr
      rw [← hr]
  · left
    rw [if_neg hch] at hr
    simp at hr
    rw [← hr]

/-- Storing a key while `init` is false and the current slot is not set either
invokes every listener or leaves the current slot not set. -/
theorem first_key_fires_or_keeps_current {H : Hkdf} {ks : keystore} (index : Nat)
    (key : List Byte) (now ksz : Nat)
    (hinit : ks.init = false) (hcur : (ks.keys ks.current).isset = false) :
    (keystore_set_session_key H ks index key now).fired = ks.listeners
      ∨ keystore_get_current_session_key (keystore_set_session_key H ks index key now).ks ksz
          = keystore_get_current_session_key ks ksz := by
  have hst : ¬ ((ks.keys ks.current).isset = true ∧ index < (ks.keys ks.current).index) := by
    simp [hcur]
  unfold keystore_set_session_key
  rw [if_neg hst]
  cases hf : find_key ks index with
  | some k =>
    right
    have hk : ks.current ≠ k := by
      intro hc
      have := (find_key_some hf).1
      rw [← hc, hcur] at this
      exact Bool.false_ne_true this
    by_cases hm : key_matches (ks.keys k).skey key = true
    · simp [hm]
    · cases hH : H (load_key key).val ks.salt MKEY_INFO <;>
        simp [hm, keystore_derive_media_key, keystore.set_key, hH, keystore_get_current_session_key,
          hk]
  | none =>
    left
    cases hH : H (load_key key).val ks.salt MKEY_INFO <;>
      simp [keystore_derive_media_key, keystore.set_key, hH, hinit]

/-- C10, as stated, fails: with one listener registered and the key `0x11...`
current under index 5, storing the different key `0x22...` under index 5
changes the pair returned by `keystore_get_current_session_key` from
`(5, 0x11...)` to `(5, 0x22...)` and invokes no listener; `keystore_reset_keys`
changes it to `ENOENT` and invokes no listener either. -/
theorem current_key_changes_unnotified :
    demo_l1.listeners = [{ changedh := 1, arg := 7 }]
      ∧ keystore_get_current_session_key demo_l1 E2EE_SESSIONKEY_SIZE
          = { err := Errno.OK, index := some 5, key := demo_key 0x11 }
      ∧ keystore_get_current_session_key
          (keystore_set_session_key demo_hkdf demo_l1 5 (demo_key 0x22) 2).ks E2EE_SESSIONKEY_SIZE
          = { err := Errno.OK, index := some 5, key := demo_key 0x22 }
      ∧ (keystore_set_session_key demo_hkdf demo_l1 5 (demo_key 0x22) 2).fired = []
      ∧ (keystore_get_current_session_key (keystore_reset_keys demo_l1).ks
          E2EE_SESSIONKEY_SIZE).err = Errno.ENOENT
      ∧ (keystore_reset_keys demo_l1).fired = [] := by
  refine ⟨?_, ?_, ?_, ?_, ?_, ?_⟩ <;> decide

/-- C10, amended: a change of the pair returned by
`keystore_get_current_session_key` is notified to every registered listener
(each invoked once, in registration order) when the operation is
`keystore_rotate`, or `keystore_set_session_key` on a keystore with `init`
false whose current slot is not set. `keystore_set_session_key` on a keystore
with `init` true, `keystore_reset_keys` and `keystore_reset` invoke no
listener. -/
theorem current_key_change_notified (H : Hkdf) (ks : keystore) (index : Nat) (key : List Byte)
    (now : Nat) :
    (∀ r, keystore_rotate H ks = some r →
        keystore_get_current_session_key r.ks E2EE_SESSIONKEY_SIZE
          ≠ keystore_get_current_session_key ks E2EE_SESSIONKEY_SIZE →
        r.fired = ks.listeners)
      ∧ (ks.init = false → (ks.keys ks.current).isset = false →
        keystore_get_current_session_key (keystore_set_session_key H ks index key now).ks
            E2EE_SESSIONKEY_SIZE
          ≠ keystore_get_current_session_key ks E2EE_SESSIONKEY_SIZE →
        (keystore_set_session_key H ks index key now).fired = ks.listeners)
      ∧ (ks.init = true → (keystore_set_session_key H ks index key now).fired = [])
      ∧ (keystore_reset_keys ks).fired = []
      ∧ (keystore_reset ks).fired = [] := by
  refine ⟨?_, ?_, ?_, rfl, rfl⟩
  · intro r hr hne
    rcases rotate_fires_or_keeps_current E2EE_SESSIONKEY_SIZE hr with h | h
    · exact h
    · exact absurd h hne
  · intro hinit hcur hne
    rcases first_key_fires_or_keeps_current index key now E2EE_SESSIONKEY_SIZE hinit hcur
      with h | h
    · exact h
    · exact absurd h hne
  · intro hinit
    unfold keystore_set_session_key
    split
    · rfl
    · split
      · split <;> rfl
      · simp only [set_key_init, hinit, if_true]
        split <;> rfl

theorem current_key_change_notified_witness :
    demo_l0.init = false ∧ (demo_l0.keys demo_l0.current).isset = false
      ∧ keystore_get_current_session_key
          (keystore_set_session_key demo_hkdf demo_l0 5 (demo_key 0x11) 1).ks E2EE_SESSIONKEY_SIZE
          ≠ keystore_get_current_session_key demo_l0 E2EE_SESSIONKEY_SIZE
      ∧ (keystore_set_session_key demo_hkdf demo_l0 5 (demo_key 0x11) 1).fired
          = [{ changedh := 1, arg := 7 }] :=
  ⟨by decide, by decide, by decide,
    (current_key_change_notified demo_hkdf demo_l0 5 (demo_key 0x11) 1).2.1
      (by decide) (by decide) (by decide)⟩

theorem add_listeners_listeners (ls : List listener) :
    ∀ ks : keystore, (add_listeners ls ks).listeners = ks.listeners ++ ls := by
  induction ls with
  | nil => intro ks; simp [add_listeners]
  | cons l rest ih =>
    intro ks
    simp [add_listeners, ih, keystore_add_listener]

theorem unlink_first_absent {a : Nat} :
    ∀ ls : List listener, a ∉ ls.map listener.arg → unlink_first a ls = ls := by
  intro ls
  induction ls with
  | nil => intro _; rfl
  | cons l rest ih =>
    intro h
    simp only [List.map_cons, List.mem_cons, not_or] at h
    simp [unlink_first, Ne.symm h.1, ih h.2]

theorem unlink_first_nodup :
    ∀ (ls : List listener) (k : Nat) (l : listener), (ls.map listener.arg).Nodup →
      ls.get? k = some l → unlink_first l.arg ls = ls.eraseIdx k := by
  intro ls
  induction ls with
  | nil => intro k l _ hk; simp at hk
  | cons x rest ih =>
    intro k l hnd hk
    simp only [List.map_cons, List.nodup_cons] at hnd
    cases k with
    | zero =>
      simp only [List.get?_cons_zero, Option.some.injEq] at hk
      subst hk
      simp [unlink_first]
    | succ k =>
      simp only [List.get?_cons_succ] at hk
      have hmem : l.arg ∈ rest.map listener.arg :=
        List.mem_map_of_mem _ (List.get?_mem hk)
      have hne : x.arg ≠ l.arg := by
        intro hc
        rw [hc] at hnd
        exact hnd.1 hmem
      simp [unlink_first, hne, ih k l hnd.2 hk]

/-- With HKDF succeeding `keystore_rotate` always returns success and invokes
the registered listeners in list order. -/
theorem rotate_ok {H : Hkdf} (hH : HkdfOk H) (ks : keystore) :
    ∃ r, keystore_rotate H ks = some r ∧ r.err = Errno.OK ∧ r.fired = ks.listeners := by
  unfold keystore_rotate
  by_cases hch : ks.current = ks.head
  · rw [if_pos hch]
    by_cases hlt : (ks.keys ks.head).index < ((ks.keys ks.head).index + 1) % U32_MOD
    · have hb : (ks.keys ks.head).index + 1 < U32_MOD := by
        by_contra hc
        have := Nat.mod_lt ((ks.keys ks.head).index + 1) (show 0 < U32_MOD by decide)
        have h2 : ((ks.keys ks.head).index + 1) % U32_MOD ≤ (ks.keys ks.head).index + 1 - U32_MOD := by
          rw [Nat.mod_eq_sub_mod (by omega)]
          exact Nat.mod_le _ _
        omega
      obtain ⟨s, hs⟩ := hkdf_some hH (ks.keys ks.head).skey.val ks.salt SKEY_INFO
      obtain ⟨mk, hmk⟩ := hkdf_some hH s.val ks.salt MKEY_INFO
      rw [Nat.mod_eq_of_lt hb, hash_to_key_one_step rfl hb hs hmk]
      exact ⟨_, rfl, rfl, rfl⟩
    · unfold keystore_hash_to_key
      have hfuel : U32_MOD = 4294967295 + 1 := rfl
      rw [hfuel, hash_loop_done _ (by rw [← hfuel]; exact hlt)]
      exact ⟨_, rfl, rfl, rfl⟩
  · rw [if_neg hch]
    exact ⟨_, rfl, rfl, rfl⟩

/-- C11: on a keystore without listeners, after `keystore_add_listener` was
called for the entries of `ls` (any callbacks, pairwise distinct arguments),
`keystore_remove_listener` with the argument of the `k`-th entry leaves exactly
the other entries registered, in their original order; `keystore_rotate` (HKDF
succeeding) then returns success and invokes exactly those listeners, each
once with its own argument, in insertion order; and `keystore_remove_listener`
with an argument that no entry carries leaves the keystore as it is. -/
theorem listener_registry (H : Hkdf) (hH : HkdfOk H) (ks : keystore) (ls : List listener)
    (k : Nat) (l : listener)
    (hempty : ks.listeners = [])
    (hdistinct : (ls.map listener.arg).Nodup)
    (hk : ls.get? k = some l) :
    (keystore_remove_listener (add_listeners ls ks) l.arg).ks.listeners = ls.eraseIdx k
      ∧ (keystore_rotate H (keystore_remove_listener (add_listeners ls ks) l.arg).ks).map
          (fun r => (r.err, r.fired)) = some (Errno.OK, ls.eraseIdx k)
      ∧ ∀ a, a ∉ ls.map listener.arg →
          (keystore_remove_listener (add_listeners ls ks) a).ks = add_listeners ls ks := by
  have hls : (add_listeners ls ks).listeners = ls := by
    rw [add_listeners_listeners, hempty, List.nil_append]
  have hrem : (keystore_remove_listener (add_listeners ls ks) l.arg).ks.listeners
      = ls.eraseIdx k := by
    simp only [keystore_remove_listener, hls]
    exact unlink_first_nodup ls k l hdistinct hk
  refine ⟨hrem, ?_, ?_⟩
  · obtain ⟨r, hr, herr, hfired⟩ :=
      rotate_ok hH (keystore_remove_listener (add_listeners ls ks) l.arg).ks
    rw [hr, Option.map_some', herr, hfired, hrem]
  · intro a ha
    have hun : unlink_first a (add_listeners ls ks).listeners = (add_listeners ls ks).listeners := by
      rw [hls]; exact unlink_first_absent ls ha
    simp only [keystore_remove_listener, hun]

theorem listener_registry_witness :
    HkdfOk demo_hkdf ∧ demo_s1.listeners = []
      ∧ (([⟨1, 10⟩, ⟨2, 20⟩, ⟨1, 30⟩] : List listener).map listener.arg).Nodup
      ∧ ([⟨1, 10⟩, ⟨2, 20⟩, ⟨1, 30⟩] : List listener).get? 1 = some ⟨2, 20⟩
      ∧ (keystore_remove_listener (add_listeners [⟨1, 10⟩, ⟨2, 20⟩, ⟨1, 30⟩] demo_s1)
            20).ks.listeners = [⟨1, 10⟩, ⟨1, 30⟩]
      ∧ (keystore_rotate demo_hkdf
            (keystore_remove_listener (add_listeners [⟨1, 10⟩, ⟨2, 20⟩, ⟨1, 30⟩] demo_s1)
              20).ks).map (fun r => (r.err, r.fired))
          = some (Errno.OK, [⟨1, 10⟩, ⟨1, 30⟩])
      ∧ (keystore_remove_listener (add_listeners [⟨1, 10⟩, ⟨2, 20⟩, ⟨1, 30⟩] demo_s1) 40).ks
          = add_listeners [⟨1, 10⟩, ⟨2, 20⟩, ⟨1, 30⟩] demo_s1 :=
  have h := listener_registry demo_hkdf demo_hkdf_ok demo_s1 [⟨1, 10⟩, ⟨2, 20⟩, ⟨1, 30⟩] 1
    ⟨2, 20⟩ (by decide) (by decide) (by decide)
  ⟨demo_hkdf_ok, by decide, by decide, by decide, h.1, h.2.1, h.2.2 40 (by decide)⟩

/-- C12: `keystore_set_fresh_session_key` with `(index, key, salt)` behaves as
`keystore_set_session_key` with the 32-byte value `HKDF(key, salt, "cs")`,
computed with the salt of the call and not the salt of the keystore: same
return code, same final state, same listener calls, from every state; on a
freshly created keystore `keystore_get_current_session_key` afterwards returns
the index with that hashed key (its media key derivation succeeding). When the
"cs" HKDF step fails the call returns `EINVAL` and leaves the keystore as it
was. -/
theorem set_fresh_session_key_hashes_then_stores (H : Hkdf) (ks : keystore) (index : Nat)
    (key salt : List Byte) (now t0 : Nat) :
    (∀ hashed : Key, H key salt CS_INFO = some hashed →
        keystore_set_fresh_session_key H ks index key salt now
          = keystore_set_session_key H ks index hashed.val now)
      ∧ (∀ hashed : Key, H key salt CS_INFO = some hashed →
        (H hashed.val (keystore_alloc t0).salt MKEY_INFO).isSome = true →
        keystore_get_current_session_key
            (keystore_set_fresh_session_key H (keystore_alloc t0) index key salt now).ks
            E2EE_SESSIONKEY_SIZE
          = { err := Errno.OK, index := some index, key := hashed.val })
      ∧ (H key salt CS_INFO = none →
        (keystore_set_fresh_session_key H ks index key salt now).err = Errno.EINVAL
          ∧ (keystore_set_fresh_session_key H ks index key salt now).ks = ks
          ∧ (keystore_set_fresh_session_key H ks index key salt now).fired = []) := by
  refine ⟨?_, ?_, ?_⟩
  · intro hashed hh
    simp [keystore_set_fresh_session_key, hh]
  · intro hashed hh hm
    obtain ⟨m, hm⟩ := Option.isSome_iff_exists.mp hm
    have hst : ¬ (((keystore_alloc t0).keys (keystore_alloc t0).current).isset = true
        ∧ index < ((keystore_alloc t0).keys (keystore_alloc t0).current).index) := by
      simp [keystore_alloc, keyinfo.zero]
    have hf : find_key (keystore_alloc t0) index = none :=
      find_key_none_of (by simp [keystore_alloc, keyinfo.zero])
    have hm2 : H (load_key hashed.val).val (keystore_alloc t0).salt MKEY_INFO = some m := by
      rw [load_key_val]; exact hm
    simp only [keystore_set_fresh_session_key, hh]
    rw [set_session_key_insert now hst hf hm2]
    simp [keystore_get_current_session_key, keystore_alloc, read_key_full, load_key_val]
  · intro hh
    simp [keystore_set_fresh_session_key, hh]

theorem set_fresh_session_key_hashes_then_stores_witness :
    demo_hkdf (List.replicate 16 0xAA) (List.replicate 8 0xBB) CS_INFO
        = some (load_key (99 :: List.replicate 16 0xAA))
      ∧ keystore_set_fresh_session_key demo_hkdf demo_s1 1 (List.replicate 16 0xAA)
          (List.replicate 8 0xBB) 3
        = keystore_set_session_key demo_hkdf demo_s1 1
          (load_key (99 :: List.replicate 16 0xAA)).val 3
      ∧ keystore_get_current_session_key
          (keystore_set_fresh_session_key demo_hkdf (keystore_alloc 0) 1 (List.replicate 16 0xAA)
            (List.replicate 8 0xBB) 3).ks E2EE_SESSIONKEY_SIZE
        = { err := Errno.OK, index := some 1,
            key := (load_key (99 :: List.replicate 16 0xAA)).val } :=
  have h := set_fresh_session_key_hashes_then_stores demo_hkdf demo_s1 1 (List.replicate 16 0xAA)
    (List.replicate 8 0xBB) 3 0
  ⟨rfl, h.1 _ rfl, h.2.1 _ rfl rfl⟩

/-- C13: from every keystore state `keystore_reset_keys` returns success and
leaves all four slots zeroed and not set, `current = head = 0`, and `init`,
`has_keys`, `decrypt_attempted`, `decrypt_successful` false, while the salt and
the listener list are as before; the keystore then looks empty:
`keystore_has_keys` is false, `keystore_get_current_session_key` and
`keystore_get_next_session_key` return `ENOENT`, `keystore_get_media_key`
returns `ENOENT` for every index, and `keystore_get_max_key` is 0. -/
theorem reset_keys_empties (H : Hkdf) (ks : keystore) (index ksz : Nat) :
    (keystore_reset_keys ks).err = Errno.OK
      ∧ (∀ k, (keystore_reset_keys ks).ks.keys k = keyinfo.zero)
      ∧ (keystore_reset_keys ks).ks.current = 0
      ∧ (keystore_reset_keys ks).ks.head = 0
      ∧ (keystore_reset_keys ks).ks.init = false
      ∧ (keystore_reset_keys ks).ks.has_keys = false
      ∧ (keystore_reset_keys ks).ks.decrypt_attempted = false
      ∧ (keystore_reset_keys ks).ks.decrypt_successful = false
      ∧ (keystore_reset_keys ks).ks.salt = ks.salt
      ∧ (keystore_reset_keys ks).ks.listeners = ks.listeners
      ∧ keystore_has_keys (keystore_reset_keys ks).ks = false
      ∧ (keystore_get_current_session_key (keystore_reset_keys ks).ks ksz).err = Errno.ENOENT
      ∧ (keystore_get_next_session_key (keystore_reset_keys ks).ks ksz).err = Errno.ENOENT
      ∧ (keystore_get_media_key H (keystore_reset_keys ks).ks index ksz).map (fun r => r.err)
          = some Errno.ENOENT
      ∧ keystore_get_max_key (keystore_reset_keys ks).ks = 0 := by
  have hf : find_key (keystore_reset_keys ks).ks index = none :=
    find_key_none_of (by simp [keystore_reset_keys, keyinfo.zero])
  refine ⟨rfl, fun _ => rfl, rfl, rfl, rfl, rfl, rfl, rfl, rfl, rfl, rfl, ?_, ?_, ?_, ?_⟩
  · simp [keystore_get_current_session_key, keystore_reset_keys, keyinfo.zero]
  · simp [keystore_get_next_session_key, keystore_reset_keys]
  · unfold keystore_get_media_key
    rw [hf]
    simp [keystore_reset_keys, keyinfo.zero]
  · simp [keystore_get_max_key, keystore_reset_keys, keyinfo.zero]

/-- C14, evaluated on the code: `keystore_get_media_key` opens its critical
section with `lock_read_get`, and on the keystore holding indices 5 (current)
and 6 (head) the request for index 9 writes three slots, the current slot
among them, and moves `head` while only that reader lock is held. -/
theorem get_media_key_writes_under_read_lock :
    (Op.get_media_key 9 32).lock_mode = LockMode.read
      ∧ (Op.set_session_key 9 (demo_key 0x33) 4).lock_mode = LockMode.write
      ∧ Op.rotate.lock_mode = LockMode.write
      ∧ (demo_s2.head.val, demo_s2.current.val, keystore_get_max_key demo_s2) = (2, 1, 6)
      ∧ (keystore_get_media_key demo_hkdf demo_s2 9 32).map
          (fun r => (r.ks.head.val, r.ks.current.val, keystore_get_max_key r.ks))
        = some (1, 1, 9) := by
  refine ⟨rfl, rfl, rfl, ?_, ?_⟩ <;> decide

/-- C19, as stated, fails for keys shorter than 32 bytes: the slot of index 5
holds `0x11` 32 times; the 2-byte key `0x11 0x11`, zero-padded, differs
from it, but `keystore_set_session_key` returns `EALREADY` and keeps the
stored key. -/
theorem short_key_compares_as_prefix :
    find_key demo_s1 5 = some 1
      ∧ (demo_s1.keys 1).skey.val = demo_key 0x11
      ∧ (load_key [0x11, 0x11]).val ≠ demo_key 0x11
      ∧ (keystore_set_session_key demo_hkdf demo_s1 5 [0x11, 0x11] 3).err = Errno.EALREADY
      ∧ ((keystore_set_session_key demo_hkdf demo_s1 5 [0x11, 0x11] 3).ks.keys 1).skey.val
          = demo_key 0x11 := by
  refine ⟨?_, ?_, ?_, ?_, ?_⟩ <;> decide

/-- C19, amended: when the lookup finds a set slot `k` for a non-stale index,
`keystore_set_session_key` returns `EALREADY` exactly when the first
`min(size, 32)` bytes of the stored session key equal the first
`min(size, 32)` bytes of the supplied key; for keys of 32 bytes or more this
is equality of the stored key with the truncated key `P`. Otherwise (HKDF
succeeding) it returns success and the stored session key becomes the key
truncated or zero-padded to 32 bytes. -/
theorem set_session_key_compares_supplied_bytes (H : Hkdf) (hH : HkdfOk H) (ks : keystore)
    (i : Nat) (k : Fin NUM_KEYS) (key : List Byte) (now : Nat)
    (hst : ¬ ((ks.keys ks.current).isset = true ∧ i < (ks.keys ks.current).index))
    (hf : find_key ks i = some k) :
    ((keystore_set_session_key H ks i key now).err = Errno.EALREADY ↔
        (ks.keys k).skey.val.take (min key.length E2EE_SESSIONKEY_SIZE)
          = key.take (min key.length E2EE_SESSIONKEY_SIZE))
      ∧ (E2EE_SESSIONKEY_SIZE ≤ key.length →
        ((keystore_set_session_key H ks i key now).err = Errno.EALREADY ↔
          (ks.keys k).skey = load_key key))
      ∧ ((keystore_set_session_key H ks i key now).err ≠ Errno.EALREADY →
        (keystore_set_session_key H ks i key now).err = Errno.OK
          ∧ ((keystore_set_session_key H ks i key now).ks.keys k).skey = load_key key) := by
  obtain ⟨m, hm⟩ := hkdf_some hH (load_key key).val ks.salt MKEY_INFO
  have hiff : (keystore_set_session_key H ks i key now).err = Errno.EALREADY ↔
      (ks.keys k).skey.val.take (min key.length E2EE_SESSIONKEY_SIZE)
        = key.take (min key.length E2EE_SESSIONKEY_SIZE) := by
    cases hmatch : key_matches (ks.keys k).skey key with
    | true =>
      rw [set_session_key_same key now hf hmatch]
      simpa [key_matches] using hmatch
    | false =>
      rw [set_session_key_overwrite now hst hf hmatch hm]
      have : ¬ ((ks.keys k).skey.val.take (min key.length E2EE_SESSIONKEY_SIZE)
          = key.take (min key.length E2EE_SESSIONKEY_SIZE)) := by
        simpa [key_matches] using hmatch
      simp [this]
  refine ⟨hiff, ?_, ?_⟩
  · intro hlen
    rw [hiff]
    have h1 : (ks.keys k).skey.val.length ≤ E2EE_SESSIONKEY_SIZE :=
      le_of_eq (ks.keys k).skey.property
    have hmin : min key.length E2EE_SESSIONKEY_SIZE = E2EE_SESSIONKEY_SIZE := min_eq_right hlen
    have hload : (load_key key).val = key.take E2EE_SESSIONKEY_SIZE := by
      simp [load_key, hmin, zeros]
    rw [hmin, List.take_of_length_le h1, ← hload]
    exact ⟨fun h => Subtype.ext h, fun h => congrArg Subtype.val h⟩
  · intro hne
    cases hmatch : key_matches (ks.keys k).skey key with
    | true =>
      rw [set_session_key_same key now hf hmatch] at hne
      exact absurd rfl hne
    | false =>
      rw [set_session_key_overwrite now hst hf hmatch hm]
      simp

theorem set_session_key_compares_supplied_bytes_witness :
    HkdfOk demo_hkdf
      ∧ (¬ ((demo_s1.keys demo_s1.current).isset = true
          ∧ 5 < (demo_s1.keys demo_s1.current).index))
      ∧ find_key demo_s1 5 = some 1
      ∧ (keystore_set_session_key demo_hkdf demo_s1 5 [0x11, 0x22] 3).err ≠ Errno.EALREADY
      ∧ (keystore_set_session_key demo_hkdf demo_s1 5 [0x11, 0x22] 3).err = Errno.OK
      ∧ ((keystore_set_session_key demo_hkdf demo_s1 5 [0x11, 0x22] 3).ks.keys 1).skey
          = load_key [0x11, 0x22] :=
  have h := set_session_key_compares_supplied_bytes demo_hkdf demo_hkdf_ok demo_s1 5 1
    [0x11, 0x22] 3 (by decide) (by decide)
  ⟨demo_hkdf_ok, by decide, by decide, by decide, (h.2.2 (by decide)).1, (h.2.2 (by decide)).2⟩

/-- Forgetting the count of the counted loop gives the ratchet loop, for every
amount of fuel, state and start slot. -/
theorem hash_counted_forget (H : Hkdf) (index : Nat) :
    ∀ (fuel : Nat) (ks : keystore) (h : Fin NUM_KEYS),
      (hash_to_key_loop_counted H index fuel ks h).map Prod.fst
        = hash_to_key_loop H index fuel ks h := by
  intro fuel
  induction fuel with
  | zero => intro ks h; rfl
  | succ f ih =>
    intro ks h
    unfold hash_to_key_loop_counted hash_to_key_loop
    by_cases hlt : (ks.keys h).index < index
    · simp only [hlt, if_true]
      split
      · rfl
      · split
        · rfl
        · rw [← ih]
          simp [Option.map_map, Function.comp_def]
    · simp only [hlt, if_false]
      rfl

/-- Forgetting the count of `keystore_rotate_counted` gives `keystore_rotate`. -/
theorem rotate_counted_forget (H : Hkdf) (ks : keystore) :
    (keystore_rotate_counted H ks).map Prod.fst = keystore_rotate H ks := by
  unfold keystore_rotate_counted keystore_rotate keystore_hash_to_key_counted
    keystore_hash_to_key
  rw [← hash_counted_forget]
  split
  · cases hash_to_key_loop_counted H (((ks.keys ks.head).index + 1) % U32_MOD) U32_MOD ks
      ks.head with
    | none => rfl
    | some rc =>
      obtain ⟨r, c⟩ := rc
      simp only [Option.map_some']
      split <;> rfl
  · rfl

/-- Forgetting the count of `keystore_get_media_key_counted` gives
`keystore_get_media_key`. -/
theorem get_media_key_counted_forget (H : Hkdf) (ks : keystore) (index ksz : Nat) :
    (keystore_get_media_key_counted H ks index ksz).map Prod.fst
      = keystore_get_media_key H ks index ksz := by
  unfold keystore_get_media_key_counted keystore_get_media_key keystore_hash_to_key_counted
    keystore_hash_to_key
  rw [← hash_counted_forget]
  cases find_key ks index with
  | some kid => rfl
  | none =>
    simp only
    split
    · cases hash_to_key_loop_counted H index U32_MOD ks ks.head with
      | none => rfl
      | some rc =>
        obtain ⟨r, c⟩ := rc
        simp only [Option.map_some']
        split <;> rfl
    · rfl

/-- One iteration of the counted loop with both derivations succeeding. -/
theorem hash_counted_step {H : Hkdf} {ks : keystore} {h : Fin NUM_KEYS} {index : Nat}
    (fuel : Nat) {s mk : Key} (hlt : (ks.keys h).index < index)
    (hs : H (ks.keys h).skey.val ks.salt SKEY_INFO = some s)
    (hmk : H s.val ks.salt MKEY_INFO = some mk) :
    hash_to_key_loop_counted H index (fuel + 1) ks h =
      (hash_to_key_loop_counted H index fuel
        (ks.set_key (next_slot h)
          { skey := s, mkey := mk, index := ((ks.keys h).index + 1) % U32_MOD, isset := true })
        (next_slot h)).map (fun r => (r.1, r.2 + 1)) := by
  have hne : h ≠ next_slot h := fun hc => next_slot_ne h hc.symm
  conv_lhs => unfold hash_to_key_loop_counted
  simp [hlt, keystore_derive_session_key, hs, keystore_derive_media_key, hmk, keystore.set_key,
    hne]

/-- The ratchet loop from slot `h` ends within `index - idx(h) + 1` units of
fuel, whatever HKDF does, after at most `index - idx(h)` session-key
derivations; when HKDF succeeds it makes exactly that many, returns 0, and
leaves the head at a slot whose index is `idx(h)` plus that number. -/
theorem hash_counted_run (H : Hkdf) {index : Nat} (hidx : index < U32_MOD) :
    ∀ (d fuel : Nat) (ks : keystore) (h : Fin NUM_KEYS), d < fuel →
      index - (ks.keys h).index = d →
      ∃ r c, hash_to_key_loop_counted H index fuel ks h = some (r, c)
        ∧ hash_to_key_loop H index fuel ks h = some r
        ∧ c ≤ d
        ∧ (HkdfOk H → c = d ∧ r.1 = Errno.OK
            ∧ (r.2.keys r.2.head).index = (ks.keys h).index + d) := by
  intro d
  induction d with
  | zero =>
    intro fuel ks h hfuel hd
    obtain ⟨f, rfl⟩ : ∃ f, fuel = f + 1 := ⟨fuel - 1, by omega⟩
    have hge : ¬ (ks.keys h).index < index := by omega
    refine ⟨(Errno.OK, { ks with head := h }), 0, ?_, hash_loop_done f hge, le_refl _,
      fun _ => ⟨rfl, rfl, rfl⟩⟩
    conv_lhs => unfold hash_to_key_loop_counted
    simp [hge]
  | succ d ih =>
    intro fuel ks h hfuel hd
    obtain ⟨f, rfl⟩ : ∃ f, fuel = f + 1 := ⟨fuel - 1, by omega⟩
    have hlt : (ks.keys h).index < index := by omega
    cases hs : H (ks.keys h).skey.val ks.salt SKEY_INFO with
    | none =>
      have hno : ¬ HkdfOk H := by
        intro hH
        have := hH (ks.keys h).skey.val ks.salt SKEY_INFO
        rw [hs] at this
        exact Bool.false_ne_true this
      refine ⟨(Errno.EINVAL, ks), 1, ?_, ?_, by omega, fun hH => absurd hH hno⟩
      · conv_lhs => unfold hash_to_key_loop_counted
        simp [hlt, keystore_derive_session_key, hs]
      · conv_lhs => unfold hash_to_key_loop
        simp [hlt, keystore_derive_session_key, hs]
    | some s =>
      cases hmk : H s.val ks.salt MKEY_INFO with
      | none =>
        have hno : ¬ HkdfOk H := by
          intro hH
          have := hH s.val ks.salt MKEY_INFO
          rw [hmk] at this
          exact Bool.false_ne_true this
        refine ⟨(Errno.EINVAL,
          ks.set_key (next_slot h) { ks.keys (next_slot h) with skey := s }), 1, ?_, ?_,
          by omega, fun hH => absurd hH hno⟩
        · conv_lhs => unfold hash_to_key_loop_counted
          simp [hlt, keystore_derive_session_key, hs, keystore_derive_media_key, hmk,
            keystore.set_key]
        · conv_lhs => unfold hash_to_key_loop
          simp [hlt, keystore_derive_session_key, hs, keystore_derive_media_key, hmk,
            keystore.set_key]
      | some mk =>
        have hmod : ((ks.keys h).index + 1) % U32_MOD = (ks.keys h).index + 1 :=
          Nat.mod_eq_of_lt (by omega)
        rw [hash_loop_step f hlt hs hmk, hash_counted_step f hlt hs hmk, hmod]
        obtain ⟨r, c, hc, hr, hle, hok⟩ :=
          ih f (ks.set_key (next_slot h)
            { skey := s, mkey := mk, index := (ks.keys h).index + 1, isset := true })
            (next_slot h) (by omega) (by simp; omega)
        refine ⟨r, c + 1, by rw [hc]; rfl, hr, by omega, fun hH => ?_⟩
        obtain ⟨h1, h2, h3⟩ := hok hH
        refine ⟨by omega, h2, ?_⟩
        rw [h3]
        simp
        omega

/-- A value below a sum reduced modulo `2^32` is below the plain sum. -/
theorem lt_mod_add {m a x : Nat} (h2 : x < (m + a) % U32_MOD) : x < m + a := by
  have := Nat.mod_le (m + a) U32_MOD
  omega

/-- C20: for every keystore state and every 32-bit target the loop of
`keystore_hash_to_key` terminates (the model's fuel is never used up),
whatever HKDF does, after at most `index - head.index` session-key
derivations. Every call of `keystore_rotate` returns after at most 1 of them
and every call of `keystore_get_media_key` after at most `NUM_KEYS - 1 = 3`,
with `head.index + 1` and `head.index + NUM_KEYS` reduced modulo `2^32`. When
HKDF succeeds the number of derivations is the amount by which the call
raises the index of the head slot, and it is exactly `index - head.index` in
a call of `keystore_get_media_key` that ratchets (index not found, head set,
`head.index < index < (head.index + NUM_KEYS) mod 2^32`). The counts are those
of the counted functions, whose results are the results of the functions
themselves. -/
theorem ratchet_work_bounded (H : Hkdf) (ks : keystore) (index ksz : Nat)
    (hidx : index < U32_MOD) :
    (∃ r c, keystore_hash_to_key_counted H ks index = some (r, c)
        ∧ keystore_hash_to_key H ks index = some r
        ∧ c ≤ index - (ks.keys ks.head).index
        ∧ (HkdfOk H → c = index - (ks.keys ks.head).index))
      ∧ (∃ r c, keystore_rotate_counted H ks = some (r, c)
          ∧ keystore_rotate H ks = some r
          ∧ c ≤ 1
          ∧ (HkdfOk H → c = keystore_get_max_key r.ks - keystore_get_max_key ks))
      ∧ (∃ r c, keystore_get_media_key_counted H ks index ksz = some (r, c)
          ∧ keystore_get_media_key H ks index ksz = some r
          ∧ c ≤ NUM_KEYS - 1
          ∧ (HkdfOk H → c = keystore_get_max_key r.ks - keystore_get_max_key ks)
          ∧ (HkdfOk H → find_key ks index = none → (ks.keys ks.head).isset = true →
              index > (ks.keys ks.head).index →
              index < ((ks.keys ks.head).index + NUM_KEYS) % U32_MOD →
              c = index - (ks.keys ks.head).index)) := by
  refine ⟨?_, ?_, ?_⟩
  · obtain ⟨r, c, hc, hr, hle, hok⟩ :=
      hash_counted_run H hidx _ U32_MOD ks ks.head (by omega) rfl
    exact ⟨r, c, hc, hr, hle, fun hH => (hok hH).1⟩
  · by_cases hch : ks.current = ks.head
    · have ht : ((ks.keys ks.head).index + 1) % U32_MOD < U32_MOD := Nat.mod_lt _ (by decide)
      have hle1 := Nat.mod_le ((ks.keys ks.head).index + 1) U32_MOD
      obtain ⟨r, c, hc, hr, hle, hok⟩ :=
        hash_counted_run H ht _ U32_MOD ks ks.head (by omega) rfl
      by_cases herr : r.1 ≠ Errno.OK
      · refine ⟨{ err := r.1, ks := r.2, fired := [] }, c, ?_, ?_, by omega, ?_⟩
        · simp only [keystore_rotate_counted, keystore_hash_to_key_counted, hch, if_true, hc,
            if_pos herr]
        · simp only [keystore_rotate, keystore_hash_to_key, hch, if_true, hr, if_pos herr]
        · intro hH
          exact absurd (hok hH).2.1 herr
      · refine ⟨{ err := Errno.OK
                  ks := { r.2 with current := r.2.head }
                  fired := r.2.listeners }, c, ?_, ?_, by omega, ?_⟩
        · simp only [keystore_rotate_counted, keystore_hash_to_key_counted, hch, if_true, hc,
            if_neg herr]
        · simp only [keystore_rotate, keystore_hash_to_key, hch, if_true, hr, if_neg herr]
        · intro hH
          obtain ⟨h1, _, h3⟩ := hok hH
          simp only [keystore_get_max_key]
          rw [h3, h1]
          omega
    · refine ⟨{ err := Errno.OK
                ks := { ks with current := ks.head }
                fired := ks.listeners }, 0, ?_, ?_, by omega, ?_⟩
      · simp only [keystore_rotate_counted, hch, if_false]
      · simp only [keystore_rotate, hch, if_false]
      · intro _
        simp [keystore_get_max_key]
  · cases hf : find_key ks index with
    | some kid =>
      refine ⟨{ err := Errno.OK
                ks := if index > (ks.keys ks.current).index then { ks with current := kid }
                  else ks
                key := read_key (ks.keys kid).mkey ksz }, 0, ?_, ?_, by omega, ?_, ?_⟩
      · simp only [keystore_get_media_key_counted, hf]
      · simp only [keystore_get_media_key, hf]
      · intro _
        simp only [keystore_get_max_key]
        split <;> simp
      · intro _ hn
        exact absurd hn (by simp)
    | none =>
      by_cases hg : (ks.keys ks.head).isset = true ∧ index > (ks.keys ks.head).index
          ∧ index < ((ks.keys ks.head).index + NUM_KEYS) % U32_MOD
      · obtain ⟨r, c, hc, hr, hle, hok⟩ :=
          hash_counted_run H hidx _ U32_MOD ks ks.head (by omega) rfl
        have hwin := lt_mod_add hg.2.2
        have hc3 : c ≤ NUM_KEYS - 1 := by
          simp only [NUM_KEYS] at hwin ⊢
          omega
        by_cases herr : r.1 ≠ Errno.OK
        · refine ⟨{ err := Errno.ENOENT, ks := r.2, key := zeros ksz }, c, ?_, ?_, hc3, ?_, ?_⟩
          · simp only [keystore_get_media_key_counted, hf, if_pos hg,
              keystore_hash_to_key_counted, hc, if_pos herr]
          · simp only [keystore_get_media_key, hf, if_pos hg, keystore_hash_to_key, hr,
              if_pos herr]
          · intro hH
            exact absurd (hok hH).2.1 herr
          · intro hH
            exact absurd (hok hH).2.1 herr
        · refine ⟨{ err := Errno.OK
                    ks := if index > (r.2.keys r.2.current).index then
                        { r.2 with current := r.2.head }
                      else r.2
                    key := read_key (r.2.keys r.2.head).mkey ksz }, c, ?_, ?_, hc3, ?_, ?_⟩
          · simp only [keystore_get_media_key_counted, hf, if_pos hg,
              keystore_hash_to_key_counted, hc, if_neg herr]
          · simp only [keystore_get_media_key, hf, if_pos hg, keystore_hash_to_key, hr,
              if_neg herr]
          · intro hH
            obtain ⟨h1, _, h3⟩ := hok hH
            simp only [keystore_get_max_key]
            split
            · simp only
              rw [h3, h1]
              omega
            · rw [h3, h1]
              omega
          · intro hH _ _ _ _
            exact (hok hH).1
      · refine ⟨{ err := Errno.ENOENT, ks := ks, key := zeros ksz }, 0, ?_, ?_, by omega, ?_, ?_⟩
        · simp only [keystore_get_media_key_counted, hf, if_neg hg]
        · simp only [keystore_get_media_key, hf, if_neg hg]
        · intro _
          simp
        · intro _ _ h1 h2 h3
          exact absurd ⟨h1, h2, h3⟩ hg

theorem ratchet_work_bounded_witness :
    9 < U32_MOD
      ∧ keystore_get_max_key demo_s2 = 6
      ∧ (keystore_get_media_key_counted demo_hkdf demo_s2 9 32).map Prod.snd = some 3
      ∧ (keystore_get_media_key demo_hkdf demo_s2 9 32).map
          (fun r => keystore_get_max_key r.ks) = some 9 :=
  have hmax : keystore_get_max_key demo_s2 = 6 := by decide
  match (ratchet_work_bounded demo_hkdf demo_s2 9 32 (by decide)).2.2 with
  | ⟨r, c, hc, hr, _, hadv, hex⟩ =>
    have h3 : c = 3 := by
      rw [hex demo_hkdf_ok (by decide) (by decide) (by decide) (by decide)]
      decide
    have h9 : keystore_get_max_key r.ks = 9 := by
      have := hadv demo_hkdf_ok
      rw [h3, hmax] at this
      omega
    ⟨by decide, hmax, by rw [hc, h3]; rfl, by rw [hr]; simp [h9]⟩

/-- The slots after the ratchet loop: each is as before, or was written by the
loop and is then set, with an index in the ratcheted range and a media key
derived from its session key. -/
theorem hash_loop_slots {H : Hkdf} (hH : HkdfOk H) {index : Nat} (hidx : index < U32_MOD) :
    ∀ (d fuel : Nat) (ks : keystore) (h : Fin NUM_KEYS), d < fuel →
      (ks.keys h).index + d = index →
      ∃ ks1, hash_to_key_loop H index fuel ks h = some (Errno.OK, ks1)
        ∧ ks1 = { ks with keys := ks1.keys, head := ks1.head }
        ∧ (ks1.keys ks1.head).index = index
        ∧ ((ks.keys h).isset = true → (ks1.keys ks1.head).isset = true)
        ∧ ks1.head.val = (h.val + d) % NUM_KEYS
        ∧ (∀ c, ks1.keys c = ks.keys c ∨
            ((ks1.keys c).isset = true ∧ (ks.keys h).index < (ks1.keys c).index
              ∧ (ks1.keys c).index ≤ index
              ∧ media_key_of H ks.salt (ks1.keys c).skey = some (ks1.keys c).mkey
              ∧ ((ks1.keys c).index = index → c = ks1.head))) := by
  intro d
  induction d with
  | zero =>
    intro fuel ks h hfuel hd
    obtain ⟨f, rfl⟩ : ∃ f, fuel = f + 1 := ⟨fuel - 1, by omega⟩
    have hge : ¬ (ks.keys h).index < index := by omega
    exact ⟨{ ks with head := h }, hash_loop_done f hge, rfl, by simpa using hd,
      fun h0 => h0, by simp only [NUM_KEYS]; omega, fun c => Or.inl rfl⟩
  | succ d ih =>
    intro fuel ks h hfuel hd
    obtain ⟨f, rfl⟩ : ∃ f, fuel = f + 1 := ⟨fuel - 1, by omega⟩
    have hlt : (ks.keys h).index < index := by omega
    obtain ⟨s, hs⟩ := hkdf_some hH (ks.keys h).skey.val ks.salt SKEY_INFO
    obtain ⟨mk, hmk⟩ := hkdf_some hH s.val ks.salt MKEY_INFO
    have hmod : ((ks.keys h).index + 1) % U32_MOD = (ks.keys h).index + 1 :=
      Nat.mod_eq_of_lt (by omega)
    rw [hash_loop_step f hlt hs hmk, hmod]
    obtain ⟨ks1, hrun, hframe, hindex, hisset, hhead, hslots⟩ :=
      ih f (ks.set_key (next_slot h)
        { skey := s, mkey := mk, index := (ks.keys h).index + 1, isset := true })
        (next_slot h) (by omega) (by simp; omega)
    have hhead2 : ks1.head.val = (h.val + (d + 1)) % NUM_KEYS := by
      rw [hhead]
      simp only [next_slot, NUM_KEYS]
      omega
    refine ⟨ks1, hrun, ?_, hindex, ?_, hhead2, ?_⟩
    · rw [hframe]
      simp [keystore.set_key]
    · intro _
      exact hisset (by simp)
    · intro c
      rcases hslots c with h1 | h1
      · by_cases hcn : c = next_slot h
        · right
          rw [h1, hcn]
          simp only [set_key_keys, if_true]
          refine ⟨trivial, by omega, by omega, by simpa [media_key_of] using hmk, ?_⟩
          intro he
          have hd0 : d = 0 := by omega
          apply Fin.ext
          rw [hhead, hd0]
          simp only [NUM_KEYS, next_slot]
          omega
        · left
          rw [h1]
          simp [hcn]
      · right
        obtain ⟨a, b, c2, e, u⟩ := h1
        simp only [set_key_keys, if_true, set_key_salt] at b e
        exact ⟨a, by omega, c2, e, u⟩

/-- A sum that, reduced modulo `2^32`, still lies above its first summand did
not wrap around. -/
theorem no_wrap {m a : Nat} (ha : a ≤ U32_MOD) (h : m < (m + a) % U32_MOD) :
    m + a < U32_MOD := by
  by_contra hc
  have h2 : (m + a) % U32_MOD ≤ m + a - U32_MOD := by
    rw [Nat.mod_eq_sub_mod (by omega)]
    exact Nat.mod_le _ _
  omega

/-- The ring positions written by the ratchet loop: a slot that changed sits
`t` positions after the start slot and holds the start index plus `t`. -/
theorem hash_loop_positions {H : Hkdf} (hH : HkdfOk H) {index : Nat} (hidx : index < U32_MOD) :
    ∀ (d fuel : Nat) (ks : keystore) (h : Fin NUM_KEYS), d < fuel →
      (ks.keys h).index + d = index →
      ∃ ks1, hash_to_key_loop H index fuel ks h = some (Errno.OK, ks1)
        ∧ ∀ c, ks1.keys c = ks.keys c ∨
            ∃ t, c.val = (h.val + t) % NUM_KEYS ∧ (ks1.keys c).index = (ks.keys h).index + t := by
  intro d
  induction d with
  | zero =>
    intro fuel ks h hfuel hd
    obtain ⟨f, rfl⟩ : ∃ f, fuel = f + 1 := ⟨fuel - 1, by omega⟩
    have hge : ¬ (ks.keys h).index < index := by omega
    exact ⟨{ ks with head := h }, hash_loop_done f hge, fun c => Or.inl rfl⟩
  | succ d ih =>
    intro fuel ks h hfuel hd
    obtain ⟨f, rfl⟩ : ∃ f, fuel = f + 1 := ⟨fuel - 1, by omega⟩
    have hlt : (ks.keys h).index < index := by omega
    obtain ⟨s, hs⟩ := hkdf_some hH (ks.keys h).skey.val ks.salt SKEY_INFO
    obtain ⟨mk, hmk⟩ := hkdf_some hH s.val ks.salt MKEY_INFO
    have hmod : ((ks.keys h).index + 1) % U32_MOD = (ks.keys h).index + 1 :=
      Nat.mod_eq_of_lt (by omega)
    rw [hash_loop_step f hlt hs hmk, hmod]
    obtain ⟨ks1, hrun, hpos⟩ :=
      ih f (ks.set_key (next_slot h)
        { skey := s, mkey := mk, index := (ks.keys h).index + 1, isset := true })
        (next_slot h) (by omega) (by simp; omega)
    refine ⟨ks1, hrun, ?_⟩
    intro c
    rcases hpos c with h1 | ⟨t, hv, hi⟩
    · by_cases hcn : c = next_slot h
      · right
        refine ⟨1, ?_, ?_⟩
        · rw [hcn]; rfl
        · rw [h1, hcn]
          simp
      · left
        rw [h1]
        simp [hcn]
    · right
      refine ⟨t + 1, ?_, ?_⟩
      · rw [hv]
        simp only [next_slot, NUM_KEYS]
        omega
      · rw [hi]
        simp only [set_key_keys, if_true]
        omega

theorem set_session_key_effect {H : Hkdf} (hH : HkdfOk H) (ks : keystore) (op : Op) (i : Nat)
    (key : List Byte) (now : Nat) (hop : op.stored_index = some i) :
    Effect H ks op (keystore_set_session_key H ks i key now).ks := by
  obtain ⟨m, hm⟩ := hkdf_some hH (load_key key).val ks.salt MKEY_INFO
  by_cases hst : (ks.keys ks.current).isset = true ∧ i < (ks.keys ks.current).index
  · rw [set_session_key_stale key now hst.1 hst.2]
    exact Effect.same op _ rfl rfl rfl rfl rfl
  · cases hf : find_key ks i with
    | some k =>
      cases hmatch : key_matches (ks.keys k).skey key with
      | true =>
        rw [set_session_key_same key now hf hmatch]
        exact Effect.same op _ rfl rfl rfl rfl rfl
      | false =>
        rw [set_session_key_overwrite now hst hf hmatch hm]
        exact Effect.overwrite op _ k (load_key key) m (find_key_some hf).1 hm rfl rfl rfl rfl rfl
    | none =>
      rw [set_session_key_insert now hst hf hm]
      exact Effect.insert op _ i (load_key key) m hst hf hm rfl rfl rfl rfl rfl hop

theorem rotate_effect {H : Hkdf} (hH : HkdfOk H) {ks : keystore} {r : OpResult}
    (hr : keystore_rotate H ks = some r) : Effect H ks Op.rotate r.ks := by
  unfold keystore_rotate at hr
  by_cases hch : ks.current = ks.head
  · rw [if_pos hch] at hr
    by_cases hlt : (ks.keys ks.head).index < ((ks.keys ks.head).index + 1) % U32_MOD
    · have hb : (ks.keys ks.head).index + 1 < U32_MOD := no_wrap (by decide) hlt
      obtain ⟨s, hs⟩ := hkdf_some hH (ks.keys ks.head).skey.val ks.salt SKEY_INFO
      obtain ⟨mk, hmk⟩ := hkdf_some hH s.val ks.salt MKEY_INFO
      rw [Nat.mod_eq_of_lt hb, hash_to_key_one_step rfl hb hs hmk] at hr
      simp only [ne_eq, not_true_eq_false, if_false, Option.some.injEq] at hr
      rw [← hr]
      refine Effect.ratchet Op.rotate _ 1 (le_refl 1) (Or.inl ⟨rfl, hch⟩) rfl rfl ?_ ?_ ?_
        (Or.inl rfl) ?_
      · simp
      · simp
      · intro c
        by_cases hcn : c = next_slot ks.head
        · right
          subst hcn
          simp only [set_key_keys, if_true]
          exact ⟨trivial, by omega, by omega, by simpa [media_key_of] using hmk⟩
        · left
          simp [hcn]
      · intro a b ha hb _
        have ha2 : a = next_slot ks.head := by
          by_contra hne
          exact ha (by simp [hne])
        have hb2 : b = next_slot ks.head := by
          by_contra hne
          exact hb (by simp [hne])
        rw [ha2, hb2]
    · unfold keystore_hash_to_key at hr
      have hfuel : U32_MOD = 4294967295 + 1 := rfl
      rw [hfuel, hash_loop_done _ (by rw [← hfuel]; exact hlt)] at hr
      simp only [ne_eq, not_true_eq_false, if_false, Option.some.injEq] at hr
      rw [← hr]
      exact Effect.same Op.rotate _ rfl hch.symm rfl rfl rfl
  · rw [if_neg hch] at hr
    simp only [Option.some.injEq] at hr
    rw [← hr]
    exact Effect.to_head _ rfl rfl rfl rfl rfl

theorem get_media_key_effect {H : Hkdf} (hH : HkdfOk H) {ks : keystore} {i ksz : Nat}
    {r : MediaResult} (hr : keystore_get_media_key H ks i ksz = some r) :
    Effect H ks (Op.get_media_key i ksz) r.ks := by
  unfold keystore_get_media_key at hr
  cases hf : find_key ks i with
  | some k =>
    simp only [hf, Option.some.injEq] at hr
    rw [← hr]
    by_cases hgt : i > (ks.keys ks.current).index
    · simp only [hgt, if_true]
      exact Effect.found i ksz _ k hf hgt rfl rfl rfl rfl rfl
    · simp only [hgt, if_false]
      exact Effect.same _ _ rfl rfl rfl rfl rfl
  | none =>
    simp only [hf] at hr
    by_cases hwin : (ks.keys ks.head).isset = true ∧ i > (ks.keys ks.head).index
        ∧ i < ((ks.keys ks.head).index + NUM_KEYS) % U32_MOD
    · rw [if_pos hwin] at hr
      have hidx : i < U32_MOD := lt_of_lt_of_le hwin.2.2 (le_of_lt (Nat.mod_lt _ (by decide)))
      obtain ⟨ks1, hrun, hframe, hindex, hisset, _, hslots⟩ :=
        hash_loop_slots hH hidx (i - (ks.keys ks.head).index) U32_MOD ks ks.head
          (by omega) (by omega)
      have hslots2 : ∀ c, ks1.keys c = ks.keys c ∨
          ((ks1.keys c).isset = true ∧ (ks.keys ks.head).index < (ks1.keys c).index
            ∧ (ks1.keys c).index ≤ i
            ∧ media_key_of H ks.salt (ks1.keys c).skey = some (ks1.keys c).mkey) := by
        intro c
        rcases hslots c with h1 | ⟨a, b, c2, e, _⟩
        · exact Or.inl h1
        · exact Or.inr ⟨a, b, c2, e⟩
      have hdist : ∀ a b, ks1.keys a ≠ ks.keys a → ks1.keys b ≠ ks.keys b →
          (ks1.keys a).index = (ks1.keys b).index → a = b := by
        obtain ⟨ks2, hrun2, hpos⟩ :=
          hash_loop_positions hH hidx (i - (ks.keys ks.head).index) U32_MOD ks ks.head
            (by omega) (by omega)
        rw [hrun] at hrun2
        simp only [Option.some.injEq, Prod.mk.injEq, true_and] at hrun2
        subst hrun2
        intro a b ha hb he
        rcases hpos a with h1 | ⟨t, hv, hi⟩
        · exact absurd h1 ha
        · rcases hpos b with h2 | ⟨t2, hv2, hi2⟩
          · exact absurd h2 hb
          · apply Fin.ext
            rw [hv, hv2]
            have : t = t2 := by omega
            rw [this]
      unfold keystore_hash_to_key at hr
      rw [hrun] at hr
      simp only [ne_eq, not_true_eq_false, if_false, Option.some.injEq] at hr
      have hcur : ks1.current = ks.current := by rw [hframe]
      have hinit : ks1.init = ks.init := by rw [hframe]
      have hsalt : ks1.salt = ks.salt := by rw [hframe]
      have hd : (ks.keys ks.head).index + (i - (ks.keys ks.head).index) = i := by omega
      rw [← hr]
      by_cases hgt : i > (ks1.keys ks1.current).index
      · simp only [hgt, if_true]
        refine Effect.ratchet _ _ (i - (ks.keys ks.head).index) (by omega) (Or.inr hwin.1)
          hinit hsalt (hisset hwin.1) (by rw [hd]; exact hindex) ?_ (Or.inl rfl) hdist
        intro c
        rw [hd]
        exact hslots2 c
      · simp only [hgt, if_false]
        refine Effect.ratchet _ _ (i - (ks.keys ks.head).index) (by omega) (Or.inr hwin.1)
          hinit hsalt (hisset hwin.1) (by rw [hd]; exact hindex) ?_ ?_ hdist
        · intro c
          rw [hd]
          exact hslots2 c
        · rw [hcur] at hgt
          rcases hslots ks.current with h1 | ⟨_, _, c2, _, u⟩
          · right
            refine ⟨hcur, h1, ?_⟩
            rw [hd, ← h1]
            omega
          · left
            rw [hcur]
            exact u (by omega)
    · rw [if_neg hwin] at hr
      simp only [Option.some.injEq] at hr
      rw [← hr]
      exact Effect.same _ _ rfl rfl rfl rfl rfl

/-- Every state-changing call has one of the listed effects when HKDF succeeds. -/
theorem op_effect {H : Hkdf} (hH : HkdfOk H) {ks ks1 : keystore} {op : Op}
    (h : op.apply H ks = some ks1) : Effect H ks op ks1 := by
  cases op with
  | reset_keys =>
    simp only [Op.apply, Option.some.injEq] at h
    rw [← h]
    exact Effect.cleared _ _ (fun _ => rfl) rfl rfl
  | reset =>
    simp only [Op.apply, Option.some.injEq] at h
    rw [← h]
    exact Effect.cleared _ _ (fun _ => rfl) rfl rfl
  | set_salt salt now =>
    simp only [Op.apply, Option.some.injEq] at h
    rw [← h]
    exact Effect.salt salt now _ rfl rfl rfl rfl rfl
  | set_session_key index key now =>
    simp only [Op.apply, Option.some.injEq] at h
    rw [← h]
    exact set_session_key_effect hH ks _ index key now rfl
  | set_fresh_session_key index key salt now =>
    simp only [Op.apply, Option.some.injEq] at h
    rw [← h]
    obtain ⟨hk, hhk⟩ := hkdf_some hH key salt CS_INFO
    simp only [keystore_set_fresh_session_key, hhk]
    exact set_session_key_effect hH ks _ index hk.val now rfl
  | rotate =>
    simp only [Op.apply, Option.map_eq_some'] at h
    obtain ⟨r, hr, rfl⟩ := h
    exact rotate_effect hH hr
  | get_media_key index ksz =>
    simp only [Op.apply, Option.map_eq_some'] at h
    obtain ⟨r, hr, rfl⟩ := h
    exact get_media_key_effect hH hr
  | set_decrypt_attempted =>
    simp only [Op.apply, Option.some.injEq] at h
    rw [← h]
    exact Effect.same _ _ rfl rfl rfl rfl rfl
  | set_decrypt_successful =>
    simp only [Op.apply, Option.some.injEq] at h
    rw [← h]
    exact Effect.same _ _ rfl rfl rfl rfl rfl
  | add_listener changedh arg =>
    simp only [Op.apply, Option.some.injEq] at h
    rw [← h]
    exact Effect.same _ _ rfl rfl rfl rfl rfl
  | remove_listener arg =>
    simp only [Op.apply, Option.some.injEq] at h
    rw [← h]
    exact Effect.same _ _ rfl rfl rfl rfl rfl

/-- Induction over the calls that lead to a state. -/
theorem reachableVia_invariant {H : Hkdf} {allowed : keystore → Op → Prop} (P : keystore → Prop)
    (h0 : ∀ now, P (keystore_alloc now))
    (hstep : ∀ ks ks1 op, P ks → allowed ks op → op.apply H ks = some ks1 → P ks1) :
    ∀ ks, ReachableVia H allowed ks → P ks := by
  intro ks hr
  induction hr with
  | create now => exact h0 now
  | step ks ks1 op _ _ hal hap ih => exact hstep ks ks1 op ih hal hap

theorem reachableVia_run {H : Hkdf} :
    ∀ (ops : List Op) (ks ks1 : keystore), ReachableVia H (fun _ _ => True) ks →
      (∀ op ∈ ops, op.wf = true) → run_ops H ops ks = some ks1 →
      ReachableVia H (fun _ _ => True) ks1 := by
  intro ops
  induction ops with
  | nil =>
    intro ks ks1 hr _ hrun
    simp only [run_ops, Option.some.injEq] at hrun
    rw [← hrun]
    exact hr
  | cons op rest ih =>
    intro ks ks1 hr hwf hrun
    simp only [run_ops] at hrun
    cases hap : op.apply H ks with
    | none => simp [hap] at hrun
    | some ks2 =>
      simp only [hap] at hrun
      exact ih ks2 ks1
        (ReachableVia.step ks ks2 op hr (hwf op (List.mem_cons_self _ _)) trivial hap)
        (fun o ho => hwf o (List.mem_cons_of_mem _ ho)) hrun

/-- Every reachable state is reachable step by step without restriction on the calls. -/
theorem reachableVia_of_reachable {H : Hkdf} {ks : keystore} (h : Reachable H ks) :
    ReachableVia H (fun _ _ => True) ks := by
  obtain ⟨now, ops, hwf, hrun⟩ := h
  exact reachableVia_run ops _ ks (ReachableVia.create now) hwf hrun

theorem overwrite_flags {ks : keystore} {k : Fin NUM_KEYS} {sk m : Key} (c : Fin NUM_KEYS) :
    ((fun j => if j = k then { ks.keys k with skey := sk, mkey := m } else ks.keys j) c).isset
        = (ks.keys c).isset
      ∧ ((fun j => if j = k then { ks.keys k with skey := sk, mkey := m } else ks.keys j) c).index
        = (ks.keys c).index := by
  by_cases h : c = k
  · subst h; simp
  · simp [h]

/-- One call keeps invariant 4 unless it is a lookup that hits a set slot above the head. -/
theorem currentBelowHead_step {H : Hkdf} (hH : HkdfOk H) {ks ks1 : keystore} {op : Op}
    (hP : CurrentBelowHead ks) (hal : NoHitAboveHead ks op) (hap : op.apply H ks = some ks1) :
    CurrentBelowHead ks1 := by
  unfold CurrentBelowHead at hP ⊢
  cases op_effect hH hap with
  | same op ks1 hk hc hh _ _ => rw [hk, hc, hh]; exact hP
  | salt s now ks1 hk hc hh _ _ => rw [hk, hc, hh]; exact hP
  | cleared op ks1 hz _ _ =>
    intro hs
    rw [hz] at hs
    exact absurd hs Bool.false_ne_true
  | overwrite op ks1 k sk m _ _ hk hc hh _ _ =>
    rw [hk, hc, hh, (overwrite_flags ks.current).1, (overwrite_flags ks.current).2,
      (overwrite_flags ks.head).2]
    exact hP
  | insert op ks1 i sk m hst _ _ hk hc hh _ _ _ =>
    rw [hk, hc, hh]
    by_cases hcur : (if ks.init = true then ks.current else insert_slot ks i) = insert_slot ks i
    · rw [hcur]
      intro _
      exact le_refl _
    · have hci : (if ks.init = true then ks.current else insert_slot ks i) = ks.current := by
        by_cases hi : ks.init = true
        · simp [hi]
        · simp [hi] at hcur
      rw [hci] at hcur ⊢
      simp only [hcur, if_false, if_true]
      intro hs
      by_contra hlt
      exact hst ⟨hs, by omega⟩
  | to_head ks1 hk hc hh _ _ =>
    rw [hk, hc, hh]
    intro _
    exact le_refl _
  | found i ksz ks1 k hf _ hk hc hh _ _ =>
    rw [hk, hc, hh]
    intro _
    rw [(find_key_some hf).2]
    exact hal i ksz rfl k hf
  | ratchet op ks1 d hd _ _ _ _ hidx hslots hcur _ =>
    rcases hcur with hc | ⟨hc, hkeep, hge⟩
    · rw [hc]
      intro _
      exact le_refl _
    · rw [hc, hkeep]
      intro hs
      have := hP hs
      omega

/-- One call keeps invariant 5 unless it is `keystore_set_salt` on a keystore with a set slot. -/
theorem mediaKeysDerived_step {H : Hkdf} (hH : HkdfOk H) {ks ks1 : keystore} {op : Op}
    (hP : MediaKeysDerived H ks) (hal : SaltOnlyWhenEmpty ks op)
    (hap : op.apply H ks = some ks1) : MediaKeysDerived H ks1 := by
  unfold MediaKeysDerived at hP ⊢
  cases op_effect hH hap with
  | same op ks1 hk _ _ _ hs => rw [hk, hs]; exact hP
  | salt s now ks1 hk _ _ _ _ =>
    intro c hc
    rw [hk, hal s now rfl c] at hc
    exact absurd hc Bool.false_ne_true
  | cleared op ks1 hz _ _ =>
    intro c hc
    rw [hz] at hc
    exact absurd hc Bool.false_ne_true
  | overwrite op ks1 k sk m _ hm hk _ _ _ hs =>
    intro c
    rw [hk, hs]
    by_cases hck : c = k
    · subst hck
      simp only [if_true]
      intro _
      exact hm
    · simp only [hck, if_false]
      exact hP c
  | insert op ks1 i sk m _ _ hm hk _ _ _ hs _ =>
    intro c
    rw [hk, hs]
    by_cases hck : c = insert_slot ks i
    · simp only [hck, if_true]
      intro _
      exact hm
    · simp only [hck, if_false]
      exact hP c
  | to_head ks1 hk _ _ _ hs => rw [hk, hs]; exact hP
  | found i ksz ks1 k _ _ hk _ _ _ hs => rw [hk, hs]; exact hP
  | ratchet op ks1 d _ _ _ hs _ _ hslots _ _ =>
    intro c hc
    rw [hs]
    rcases hslots c with h1 | ⟨_, _, _, hm⟩
    · rw [h1] at hc ⊢
      exact hP c hc
    · exact hm

/-- With `init` true the current slot and the head slot are set (first half of
invariant 2, strengthened by the head slot): kept by every call. -/
theorem initImpliesSet_step {H : Hkdf} (hH : HkdfOk H) {ks ks1 : keystore} {op : Op}
    (hP : ks.init = true → (ks.keys ks.current).isset = true ∧ (ks.keys ks.head).isset = true)
    (hap : op.apply H ks = some ks1) :
    ks1.init = true → (ks1.keys ks1.current).isset = true ∧ (ks1.keys ks1.head).isset = true := by
  cases op_effect hH hap with
  | same op ks1 hk hc hh hi _ => rw [hk, hc, hh, hi]; exact hP
  | salt s now ks1 hk hc hh hi _ => rw [hk, hc, hh, hi]; exact hP
  | cleared op ks1 _ _ hi =>
    intro h
    rw [hi] at h
    exact absurd h Bool.false_ne_true
  | overwrite op ks1 k sk m _ _ hk hc hh hi _ =>
    rw [hk, hc, hh, hi, (overwrite_flags ks.current).1, (overwrite_flags ks.head).1]
    exact hP
  | insert op ks1 i sk m _ _ _ hk hc hh _ _ _ =>
    intro _
    rw [hk, hc, hh]
    refine ⟨?_, by simp⟩
    by_cases hi : ks.init = true
    · simp only [hi, if_true]
      by_cases hci : ks.current = insert_slot ks i
      · simp [hci]
      · simp only [hci, if_false]
        exact (hP hi).1
    · simp [hi]
  | to_head ks1 hk hc hh hi _ =>
    rw [hk, hc, hh, hi]
    intro h
    exact ⟨(hP h).2, (hP h).2⟩
  | found i ksz ks1 k hf _ hk hc hh hi _ =>
    rw [hk, hc, hh, hi]
    intro h
    exact ⟨(find_key_some hf).1, (hP h).2⟩
  | ratchet op ks1 d _ _ hi _ hhset _ hslots hcur _ =>
    rw [hi]
    intro h
    refine ⟨?_, hhset⟩
    rcases hcur with hc | ⟨hc, hkeep, _⟩
    · rw [hc]; exact hhset
    · rw [hc, hkeep]; exact (hP h).1

/-- A set slot implies `init` (second half of invariant 2): kept by every call
except `keystore_rotate` on a keystore with `init` false. -/
theorem setImpliesInit_step {H : Hkdf} (hH : HkdfOk H) {ks ks1 : keystore} {op : Op}
    (hP : (∃ k, (ks.keys k).isset = true) → ks.init = true) (hal : RotateOnlyAfterInit ks op)
    (hap : op.apply H ks = some ks1) :
    (∃ k, (ks1.keys k).isset = true) → ks1.init = true := by
  cases op_effect hH hap with
  | same op ks1 hk _ _ hi _ => rw [hk, hi]; exact hP
  | salt s now ks1 hk _ _ hi _ => rw [hk, hi]; exact hP
  | cleared op ks1 hz _ _ =>
    rintro ⟨k, hk⟩
    rw [hz] at hk
    exact absurd hk Bool.false_ne_true
  | overwrite op ks1 k sk m _ _ hk _ _ hi _ =>
    rw [hk, hi]
    rintro ⟨c, hc⟩
    rw [(overwrite_flags c).1] at hc
    exact hP ⟨c, hc⟩
  | insert op ks1 i sk m _ _ _ _ _ _ hi _ _ =>
    intro _
    exact hi
  | to_head ks1 _ _ _ hi _ =>
    intro _
    rw [hi]
    exact hal rfl
  | found i ksz ks1 k _ _ hk _ _ hi _ => rw [hk, hi]; exact hP
  | ratchet op ks1 d _ hwhy hi _ _ _ _ _ _ =>
    intro _
    rw [hi]
    rcases hwhy with ⟨hop, _⟩ | hset
    · exact hal hop
    · exact hP ⟨ks.head, hset⟩

/-- While `init` is false the cursors coincide and no set slot lies above the
head: kept by every call. -/
theorem uninitCursors_step {H : Hkdf} (hH : HkdfOk H) {ks ks1 : keystore} {op : Op}
    (hP : ks.init = false → ks.current = ks.head
      ∧ ∀ k, (ks.keys k).isset = true → (ks.keys k).index ≤ (ks.keys ks.head).index)
    (hap : op.apply H ks = some ks1) :
    ks1.init = false → ks1.current = ks1.head
      ∧ ∀ k, (ks1.keys k).isset = true → (ks1.keys k).index ≤ (ks1.keys ks1.head).index := by
  cases op_effect hH hap with
  | same op ks1 hk hc hh hi _ => rw [hk, hc, hh, hi]; exact hP
  | salt s now ks1 hk hc hh hi _ => rw [hk, hc, hh, hi]; exact hP
  | cleared op ks1 hz hc _ =>
    intro _
    refine ⟨hc, ?_⟩
    intro k hk
    rw [hz] at hk
    exact absurd hk Bool.false_ne_true
  | overwrite op ks1 k sk m _ _ hk hc hh hi _ =>
    rw [hk, hc, hh, hi]
    intro h
    refine ⟨(hP h).1, ?_⟩
    intro c
    rw [(overwrite_flags c).1, (overwrite_flags c).2, (overwrite_flags ks.head).2]
    exact (hP h).2 c
  | insert op ks1 i sk m _ _ _ _ _ _ hi _ _ =>
    intro h
    rw [hi] at h
    exact absurd h.symm Bool.false_ne_true
  | to_head ks1 hk hc hh hi _ =>
    rw [hk, hc, hh, hi]
    intro h
    exact ⟨rfl, (hP h).2⟩
  | found i ksz ks1 k hf hlt hk hc hh hi _ =>
    rw [hi]
    intro h
    have h1 := (hP h).2 k (find_key_some hf).1
    rw [(find_key_some hf).2, ← (hP h).1] at h1
    omega
  | ratchet op ks1 d hd _ hi _ _ hidx hslots hcur _ =>
    rw [hi]
    intro h
    obtain ⟨hch, hmax⟩ := hP h
    constructor
    · rcases hcur with hc | ⟨_, _, hge⟩
      · exact hc
      · rw [hch] at hge
        omega
    · intro c hc
      rw [hidx]
      rcases hslots c with h1 | ⟨_, _, hle, _⟩
      · rw [h1] at hc ⊢
        have := hmax c hc
        omega
      · exact hle

/-- C15, as stated, fails: after storing 5, 6, 7, 9 and then 8 the head is at
index 8 while slot 0 still holds index 9; `keystore_get_media_key` for 9 finds
that slot and moves `current` to it, so the current slot is set with index 9
above the head index 8, and `keystore_get_current_session_key` returns index 9
while `keystore_get_max_key` is 8. -/
theorem current_index_passes_head :
    (run_ops demo_hkdf
        [Op.set_session_key 5 (demo_key 0x11) 1, Op.set_session_key 6 (demo_key 0x22) 2,
          Op.set_session_key 7 (demo_key 0x33) 3, Op.set_session_key 9 (demo_key 0x44) 4,
          Op.set_session_key 8 (demo_key 0x55) 5, Op.get_media_key 9 32] (keystore_alloc 0)).map
      (fun ks =>
        ((ks.keys ks.current).isset, (ks.keys ks.current).index, (ks.keys ks.head).index,
          (keystore_get_current_session_key ks E2EE_SESSIONKEY_SIZE).index,
          keystore_get_max_key ks))
      = some (true, 9, 8, some 9, 8) := by
  decide

/-- C15, amended: in every state reached from create through well-typed public
calls (HKDF succeeding) among which no `keystore_get_media_key` asks for an
index that a set slot holds and that is greater than the index of the head
slot, a set current slot has an index not above the head slot's index; so the
index returned by `keystore_get_current_session_key` is at most
`keystore_get_max_key`. -/
theorem current_index_at_most_head (H : Hkdf) (hH : HkdfOk H) (ks : keystore)
    (hr : ReachableVia H NoHitAboveHead ks) :
    ((ks.keys ks.current).isset = true →
        (ks.keys ks.current).index ≤ (ks.keys ks.head).index)
      ∧ ∀ ksz i, (keystore_get_current_session_key ks ksz).index = some i →
          i ≤ keystore_get_max_key ks := by
  have hP : CurrentBelowHead ks :=
    reachableVia_invariant CurrentBelowHead
      (fun now hs => by simp [keystore_alloc, keyinfo.zero] at hs)
      (fun _ _ _ hP hal hap => currentBelowHead_step hH hP hal hap) ks hr
  refine ⟨hP, ?_⟩
  intro ksz i hi
  unfold keystore_get_current_session_key at hi
  by_cases hs : (ks.keys ks.current).isset = true
  · simp only [hs, if_true, Option.some.injEq] at hi
    rw [← hi]
    exact hP hs
  · simp [hs] at hi

theorem current_index_at_most_head_witness :
    HkdfOk demo_hkdf
      ∧ ((Op.set_session_key 5 (demo_key 0x11) 1).apply demo_hkdf (keystore_alloc 0)
          = some (keystore_set_session_key demo_hkdf (keystore_alloc 0) 5 (demo_key 0x11) 1).ks)
      ∧ (((keystore_set_session_key demo_hkdf (keystore_alloc 0) 5 (demo_key 0x11) 1).ks.keys
            (keystore_set_session_key demo_hkdf (keystore_alloc 0) 5 (demo_key 0x11)
              1).ks.current).index
          ≤ ((keystore_set_session_key demo_hkdf (keystore_alloc 0) 5 (demo_key 0x11) 1).ks.keys
            (keystore_set_session_key demo_hkdf (keystore_alloc 0) 5 (demo_key 0x11)
              1).ks.head).index) :=
  ⟨demo_hkdf_ok, rfl,
    (current_index_at_most_head demo_hkdf demo_hkdf_ok
      (keystore_set_session_key demo_hkdf (keystore_alloc 0) 5 (demo_key 0x11) 1).ks
      (ReachableVia.step (keystore_alloc 0) _ (Op.set_session_key 5 (demo_key 0x11) 1)
        (ReachableVia.create 0) (by decide) (fun _ _ h => Op.noConfusion h) rfl)).1
      (by decide)⟩

/-- C16, as stated, fails when the salt is set again after a key was stored:
with an HKDF whose output depends on the salt, after set-salt `01`, a key
stored under index 5 and set-salt `02`, the set slot still holds the media key
derived with salt `01`, which differs from the derivation with the current
salt `02`. -/
theorem media_key_stale_after_salt_change :
    (run_ops demo_hkdf_salted
        [Op.set_salt [1] 1, Op.set_session_key 5 (demo_key 0x11) 2, Op.set_salt [2] 3]
        (keystore_alloc 0)).map
      (fun ks =>
        ((ks.keys 1).isset, ks.salt, (ks.keys 1).mkey.val,
          (media_key_of demo_hkdf_salted ks.salt (ks.keys 1).skey).map Subtype.val))
      = some (true, [2], (load_key (109 :: 1 :: demo_key 0x11)).val,
          some (load_key (109 :: 2 :: demo_key 0x11)).val)
      ∧ (load_key (109 :: 1 :: demo_key 0x11)).val ≠ (load_key (109 :: 2 :: demo_key 0x11)).val := by
  refine ⟨?_, ?_⟩ <;> decide

/-- C16, amended: in every state reached from create through well-typed public
calls (HKDF succeeding) among which `keystore_set_salt` is only called while no
slot is set, the media key of every set slot is
`HKDF(session key, salt, "media_key")` with the current salt.
`keystore_set_salt` itself never touches the slots. -/
theorem media_keys_derived_with_current_salt (H : Hkdf) (hH : HkdfOk H) (ks : keystore)
    (hr : ReachableVia H SaltOnlyWhenEmpty ks) :
    (∀ k, (ks.keys k).isset = true →
        H (ks.keys k).skey.val ks.salt MKEY_INFO = some (ks.keys k).mkey)
      ∧ ∀ salt now, (keystore_set_salt ks salt now).ks.keys = ks.keys := by
  have hP : MediaKeysDerived H ks :=
    reachableVia_invariant (MediaKeysDerived H)
      (fun now k hs => by simp [keystore_alloc, keyinfo.zero] at hs)
      (fun _ _ _ hP hal hap => mediaKeysDerived_step hH hP hal hap) ks hr
  exact ⟨hP, fun _ _ => rfl⟩

theorem media_keys_derived_with_current_salt_witness :
    HkdfOk demo_hkdf
      ∧ ((keystore_set_session_key demo_hkdf (keystore_alloc 0) 5 (demo_key 0x11) 1).ks.keys
          1).isset = true
      ∧ demo_hkdf
          ((keystore_set_session_key demo_hkdf (keystore_alloc 0) 5 (demo_key 0x11) 1).ks.keys
            1).skey.val
          (keystore_set_session_key demo_hkdf (keystore_alloc 0) 5 (demo_key 0x11) 1).ks.salt
          MKEY_INFO
        = some ((keystore_set_session_key demo_hkdf (keystore_alloc 0) 5 (demo_key 0x11)
            1).ks.keys 1).mkey :=
  ⟨demo_hkdf_ok, by decide,
    (media_keys_derived_with_current_salt demo_hkdf demo_hkdf_ok
      (keystore_set_session_key demo_hkdf (keystore_alloc 0) 5 (demo_key 0x11) 1).ks
      (ReachableVia.step (keystore_alloc 0) _ (Op.set_session_key 5 (demo_key 0x11) 1)
        (ReachableVia.create 0) (by decide) (fun _ _ h => Op.noConfusion h) rfl)).1 1
      (by decide)⟩

/-- C17, as stated, fails for `keystore_rotate` before any key was stored: on a
fresh keystore it ratchets the zero key into slot 1 and marks it set, while
`init` stays false. -/
theorem rotate_before_first_key_sets_slot :
    (run_ops demo_hkdf [Op.rotate] (keystore_alloc 0)).map
      (fun ks => ((ks.keys 1).isset, (ks.keys 1).index, ks.current.val, ks.head.val, ks.init))
      = some (true, 1, 1, 1, false) := by
  decide

/-- C17, amended: with HKDF succeeding, in every state reachable from create
through well-typed public calls `init` true implies that the current slot is
set; and in every state reached through such calls among which
`keystore_rotate` is never called while `init` is false, a set slot implies
that `init` is true. -/
theorem init_and_set_slots (H : Hkdf) (hH : HkdfOk H) (ks : keystore) :
    (Reachable H ks → ks.init = true → (ks.keys ks.current).isset = true)
      ∧ (ReachableVia H RotateOnlyAfterInit ks →
          (∃ k, (ks.keys k).isset = true) → ks.init = true) := by
  constructor
  · intro hr hi
    have hP := reachableVia_invariant
      (fun s => s.init = true →
        (s.keys s.current).isset = true ∧ (s.keys s.head).isset = true)
      (fun now hs => by simp [keystore_alloc] at hs)
      (fun _ _ _ hP _ hap => initImpliesSet_step hH hP hap) ks (reachableVia_of_reachable hr)
    exact (hP hi).1
  · intro hr
    exact reachableVia_invariant (fun s => (∃ k, (s.keys k).isset = true) → s.init = true)
      (fun now hs => by
        obtain ⟨k, hk⟩ := hs
        simp [keystore_alloc, keyinfo.zero] at hk)
      (fun _ _ _ hP hal hap => setImpliesInit_step hH hP hal hap) ks hr

theorem init_and_set_slots_witness :
    HkdfOk demo_hkdf
      ∧ run_ops demo_hkdf [Op.set_session_key 5 (demo_key 0x11) 1] (keystore_alloc 0)
          = some (keystore_set_session_key demo_hkdf (keystore_alloc 0) 5 (demo_key 0x11) 1).ks
      ∧ (keystore_set_session_key demo_hkdf (keystore_alloc 0) 5 (demo_key 0x11) 1).ks.init = true
      ∧ ((keystore_set_session_key demo_hkdf (keystore_alloc 0) 5 (demo_key 0x11) 1).ks.keys
          (keystore_set_session_key demo_hkdf (keystore_alloc 0) 5 (demo_key 0x11)
            1).ks.current).isset = true :=
  ⟨demo_hkdf_ok, rfl, by decide,
    (init_and_set_slots demo_hkdf demo_hkdf_ok
      (keystore_set_session_key demo_hkdf (keystore_alloc 0) 5 (demo_key 0x11) 1).ks).1
      ⟨0, [Op.set_session_key 5 (demo_key 0x11) 1], by decide, rfl⟩ (by decide)⟩

/-- C18, as stated, fails when the head is more than one slot ahead of
current: after storing 5, 6, 7 and 9 (current at index 5 in slot 1, head at
index 9 in slot 0), storing 8 goes to slot 2 and makes it the head, but slot 0
is still set with index 9 and slot 3 with index 7 keeps its place too. -/
theorem insertion_keeps_old_head_entry :
    (run_ops demo_hkdf
        [Op.set_session_key 5 (demo_key 0x11) 1, Op.set_session_key 6 (demo_key 0x22) 2,
          Op.set_session_key 7 (demo_key 0x33) 3, Op.set_session_key 9 (demo_key 0x44) 4]
        (keystore_alloc 0)).map
      (fun ks =>
        (ks.current.val, (ks.keys ks.current).index, ks.head.val, (ks.keys ks.head).index,
          find_key ks 8))
      = some (1, 5, 0, 9, none)
      ∧ (run_ops demo_hkdf
        [Op.set_session_key 5 (demo_key 0x11) 1, Op.set_session_key 6 (demo_key 0x22) 2,
          Op.set_session_key 7 (demo_key 0x33) 3, Op.set_session_key 9 (demo_key 0x44) 4,
          Op.set_session_key 8 (demo_key 0x55) 5] (keystore_alloc 0)).map
      (fun ks =>
        (ks.head.val, keystore_get_max_key ks, (ks.keys 0).isset, (ks.keys 0).index))
      = some (2, 8, true, 9) := by
  refine ⟨?_, ?_⟩ <;> decide

/-- In a reachable state (HKDF succeeding) `init` false forces `current == head`. -/
theorem reachable_uninit_cursors {H : Hkdf} (hH : HkdfOk H) {ks : keystore}
    (hr : Reachable H ks) :
    ks.init = false → ks.current = ks.head
      ∧ ∀ k, (ks.keys k).isset = true → (ks.keys k).index ≤ (ks.keys ks.head).index :=
  reachableVia_invariant
    (fun s => s.init = false → s.current = s.head
      ∧ ∀ k, (s.keys k).isset = true → (s.keys k).index ≤ (s.keys s.head).index)
    (fun now _ => ⟨rfl, fun k hk => by simp [keystore_alloc, keyinfo.zero] at hk⟩)
    (fun _ _ _ hP _ hap => uninitCursors_step hH hP hap) ks (reachableVia_of_reachable hr)

/-- C18, amended: in every reachable state (HKDF succeeding) with
`head != current` and the head slot set, storing the 32-byte key `K` under an
index that no set slot holds and that lies strictly between the index of the
current slot and the index of the head slot returns success, stores the key in
slot `(current + 1) mod NUM_KEYS` and makes that slot the head:
`keystore_get_next_session_key` returns the index and `K`,
`keystore_get_max_key` is the index, `current` stays. Every other slot,
the previous head entry included when it sits elsewhere, is left as it was. -/
theorem insertion_after_current (H : Hkdf) (hH : HkdfOk H) (ks : keystore) (index : Nat)
    (K : Key) (now : Nat)
    (hr : Reachable H ks)
    (hhc : ks.head ≠ ks.current) (hhset : (ks.keys ks.head).isset = true)
    (hfree : ∀ k, ¬ ((ks.keys k).isset = true ∧ (ks.keys k).index = index))
    (hlo : (ks.keys ks.current).index < index) (hhi : index < (ks.keys ks.head).index) :
    (keystore_set_session_key H ks index K.val now).err = Errno.OK
      ∧ (keystore_set_session_key H ks index K.val now).ks.head = next_slot ks.current
      ∧ (keystore_set_session_key H ks index K.val now).ks.current = ks.current
      ∧ ((keystore_set_session_key H ks index K.val now).ks.keys (next_slot ks.current)).skey = K
      ∧ keystore_get_next_session_key (keystore_set_session_key H ks index K.val now).ks
          E2EE_SESSIONKEY_SIZE = { err := Errno.OK, index := some index, key := K.val }
      ∧ keystore_get_max_key (keystore_set_session_key H ks index K.val now).ks = index
      ∧ ∀ k, k ≠ next_slot ks.current →
          (keystore_set_session_key H ks index K.val now).ks.keys k = ks.keys k := by
  obtain ⟨m, hm⟩ := hkdf_some hH (load_key K.val).val ks.salt MKEY_INFO
  have hinit : ks.init = true := by
    cases hi : ks.init with
    | true => rfl
    | false => exact absurd (reachable_uninit_cursors hH hr hi).1.symm hhc
  have hst : ¬ ((ks.keys ks.current).isset = true ∧ index < (ks.keys ks.current).index) := by
    intro hc; omega
  have hf : find_key ks index = none := find_key_none_of hfree
  have hslot : insert_slot ks index = next_slot ks.current := by
    unfold insert_slot
    rw [if_pos ⟨hhc, hhset, hhi⟩]
  have hne : next_slot ks.current ≠ ks.current := next_slot_ne ks.current
  rw [set_session_key_insert now hst hf hm, hslot]
  refine ⟨rfl, rfl, by simp [hinit], by simp [load_key_val], ?_, by simp [keystore_get_max_key],
    ?_⟩
  · simp [keystore_get_next_session_key, hinit, hne, read_key_full, load_key_val]
  · intro k hk
    simp [hk]

theorem insertion_after_current_witness :
    HkdfOk demo_hkdf
      ∧ run_ops demo_hkdf
          [Op.set_session_key 5 (demo_key 0x11) 1, Op.set_session_key 9 (demo_key 0x44) 2]
          (keystore_alloc 0)
        = some (keystore_set_session_key demo_hkdf
            (keystore_set_session_key demo_hkdf (keystore_alloc 0) 5 (demo_key 0x11) 1).ks
            9 (demo_key 0x44) 2).ks
      ∧ (keystore_set_session_key demo_hkdf
          (keystore_set_session_key demo_hkdf
            (keystore_set_session_key demo_hkdf (keystore_alloc 0) 5 (demo_key 0x11) 1).ks
            9 (demo_key 0x44) 2).ks 8 (demo_key32 0x55).val 3).err = Errno.OK
      ∧ keystore_get_next_session_key
          (keystore_set_session_key demo_hkdf
            (keystore_set_session_key demo_hkdf
              (keystore_set_session_key demo_hkdf (keystore_alloc 0) 5 (demo_key 0x11) 1).ks
              9 (demo_key 0x44) 2).ks 8 (demo_key32 0x55).val 3).ks E2EE_SESSIONKEY_SIZE
        = { err := Errno.OK, index := some 8, key := (demo_key32 0x55).val }
      ∧ keystore_get_max_key
          (keystore_set_session_key demo_hkdf
            (keystore_set_session_key demo_hkdf
              (keystore_set_session_key demo_hkdf (keystore_alloc 0) 5 (demo_key 0x11) 1).ks
              9 (demo_key 0x44) 2).ks 8 (demo_key32 0x55).val 3).ks = 8 :=
  have h := insertion_after_current demo_hkdf demo_hkdf_ok
    (keystore_set_session_key demo_hkdf
      (keystore_set_session_key demo_hkdf (keystore_alloc 0) 5 (demo_key 0x11) 1).ks
      9 (demo_key 0x44) 2).ks 8 (demo_key32 0x55) 3
    ⟨0, [Op.set_session_key 5 (demo_key 0x11) 1, Op.set_session_key 9 (demo_key 0x44) 2],
      by decide, rfl⟩
    (by decide) (by decide) (by decide) (by decide) (by decide)
  ⟨demo_hkdf_ok, rfl, h.1, h.2.2.2.2.1, h.2.2.2.2.2.1⟩

/-- One call keeps the indices of the set slots distinct and at most the head
index, unless it stores a new index below the index of another set slot. -/
theorem distinctIndices_step {H : Hkdf} (hH : HkdfOk H) {ks ks1 : keystore} {op : Op}
    (hP : DistinctIndices ks ∧ NoneAboveHead ks) (hal : StoresAboveOthers ks op)
    (hap : op.apply H ks = some ks1) : DistinctIndices ks1 ∧ NoneAboveHead ks1 := by
  obtain ⟨hD, hN⟩ := hP
  unfold DistinctIndices at hD ⊢
  unfold NoneAboveHead at hN ⊢
  cases op_effect hH hap with
  | same op ks1 hk _ hh _ _ => rw [hk, hh]; exact ⟨hD, hN⟩
  | salt s now ks1 hk _ hh _ _ => rw [hk, hh]; exact ⟨hD, hN⟩
  | cleared op ks1 hz _ _ =>
    constructor
    · intro a b ha
      rw [hz] at ha
      exact absurd ha Bool.false_ne_true
    · intro k hk
      rw [hz] at hk
      exact absurd hk Bool.false_ne_true
  | overwrite op ks1 k sk m _ _ hk _ hh _ _ =>
    rw [hk, hh]
    constructor
    · intro a b
      rw [(overwrite_flags a).1, (overwrite_flags a).2, (overwrite_flags b).1,
        (overwrite_flags b).2]
      exact hD a b
    · intro c
      rw [(overwrite_flags c).1, (overwrite_flags c).2, (overwrite_flags ks.head).2]
      exact hN c
  | insert op ks1 i sk m hst hf _ hk _ hh _ _ hop =>
    have hbelow := hal i hop hst hf
    rw [hk, hh]
    constructor
    · intro a b
      by_cases ha : a = insert_slot ks i <;> by_cases hb : b = insert_slot ks i
      · intro _ _ _
        rw [ha, hb]
      · simp only [ha, hb, if_true, if_false]
        intro _ hsb he
        have := hbelow b hb hsb
        omega
      · simp only [ha, hb, if_true, if_false]
        intro hsa _ he
        have := hbelow a ha hsa
        omega
      · simp only [ha, hb, if_false]
        exact hD a b
    · intro c
      by_cases hc : c = insert_slot ks i
      · simp [hc]
      · simp only [hc, if_false, if_true]
        intro hs
        exact le_of_lt (hbelow c hc hs)
  | to_head ks1 hk _ hh _ _ => rw [hk, hh]; exact ⟨hD, hN⟩
  | found i ksz ks1 k _ _ hk _ hh _ _ => rw [hk, hh]; exact ⟨hD, hN⟩
  | ratchet op ks1 d hd _ _ _ _ hidx hslots _ hdist =>
    have hold : ∀ c, ks1.keys c = ks.keys c → (ks1.keys c).isset = true →
        (ks1.keys c).index ≤ (ks.keys ks.head).index := by
      intro c hc hs
      rw [hc] at hs ⊢
      exact hN c hs
    have hnew : ∀ c, ks1.keys c ≠ ks.keys c →
        (ks.keys ks.head).index < (ks1.keys c).index
          ∧ (ks1.keys c).index ≤ (ks.keys ks.head).index + d := by
      intro c hc
      rcases hslots c with h1 | ⟨_, hlt, hle, _⟩
      · exact absurd h1 hc
      · exact ⟨hlt, hle⟩
    constructor
    · intro a b hsa hsb he
      by_cases ha : ks1.keys a = ks.keys a <;> by_cases hb : ks1.keys b = ks.keys b
      · rw [ha] at hsa he
        rw [hb] at hsb he
        exact hD a b hsa hsb he
      · have h1 := hold a ha hsa
        have h2 := (hnew b hb).1
        omega
      · have h1 := hold b hb hsb
        have h2 := (hnew a ha).1
        omega
      · exact hdist a b ha hb he
    · intro c hs
      rw [hidx]
      by_cases hc : ks1.keys c = ks.keys c
      · have := hold c hc hs
        omega
      · exact (hnew c hc).2

/-- C21, as stated, fails: after storing 5, 6, 7, 9 and then 8 (which moves the
head back to index 8 and leaves slot 0 set with index 9) two calls of
`keystore_rotate` ratchet index 9 into slot 3; slots 0 and 3 are then both set
with index 9, and the lookup for 9 finds slot 0 although slot 3 holds the
index too. -/
theorem two_slots_with_one_index :
    (run_ops demo_hkdf
        [Op.set_session_key 5 (demo_key 0x11) 1, Op.set_session_key 6 (demo_key 0x22) 2,
          Op.set_session_key 7 (demo_key 0x33) 3, Op.set_session_key 9 (demo_key 0x44) 4,
          Op.set_session_key 8 (demo_key 0x55) 5, Op.rotate, Op.rotate] (keystore_alloc 0)).map
      (fun ks =>
        ((ks.keys 0).isset, (ks.keys 0).index, (ks.keys 3).isset, (ks.keys 3).index,
          find_key ks 9))
      = some (true, 9, true, 9, some 0) := by
  decide

/-- C21, amended: in every state reached from create through well-typed public
calls (HKDF succeeding) among which `keystore_set_session_key` and
`keystore_set_fresh_session_key` never store a key under a new index while a
set slot other than the destination slot holds a larger index, no two set
slots hold the same index; so the slot that the index lookup of
`keystore_get_media_key` and `keystore_set_session_key` finds for an index is
the only set slot with that index. -/
theorem indices_distinct (H : Hkdf) (hH : HkdfOk H) (ks : keystore)
    (hr : ReachableVia H StoresAboveOthers ks) :
    (∀ a b, (ks.keys a).isset = true → (ks.keys b).isset = true →
        (ks.keys a).index = (ks.keys b).index → a = b)
      ∧ ∀ i k, find_key ks i = some k →
          ∀ c, (ks.keys c).isset = true → (ks.keys c).index = i → c = k := by
  have hP := reachableVia_invariant (fun s => DistinctIndices s ∧ NoneAboveHead s)
    (fun now =>
      ⟨fun a b ha => by simp [keystore_alloc, keyinfo.zero] at ha,
        fun k hk => by simp [keystore_alloc, keyinfo.zero] at hk⟩)
    (fun _ _ _ hP hal hap => distinctIndices_step hH hP hal hap) ks hr
  refine ⟨hP.1, ?_⟩
  intro i k hf c hs hi
  have hk := find_key_some hf
  exact hP.1 c k hs hk.1 (by rw [hi, hk.2])

theorem indices_distinct_witness :
    HkdfOk demo_hkdf
      ∧ ((Op.set_session_key 5 (demo_key 0x11) 1).apply demo_hkdf (keystore_alloc 0)
          = some (keystore_set_session_key demo_hkdf (keystore_alloc 0) 5 (demo_key 0x11) 1).ks)
      ∧ ((Op.set_session_key 6 (demo_key 0x22) 2).apply demo_hkdf
            (keystore_set_session_key demo_hkdf (keystore_alloc 0) 5 (demo_key 0x11) 1).ks
          = some (keystore_set_session_key demo_hkdf
              (keystore_set_session_key demo_hkdf (keystore_alloc 0) 5 (demo_key 0x11) 1).ks
              6 (demo_key 0x22) 2).ks)
      ∧ ((keystore_set_session_key demo_hkdf
            (keystore_set_session_key demo_hkdf (keystore_alloc 0) 5 (demo_key 0x11) 1).ks
            6 (demo_key 0x22) 2).ks.keys 1).index
          ≠ ((keystore_set_session_key demo_hkdf
            (keystore_set_session_key demo_hkdf (keystore_alloc 0) 5 (demo_key 0x11) 1).ks
            6 (demo_key 0x22) 2).ks.keys 2).index :=
  ⟨demo_hkdf_ok, rfl, rfl, fun he =>
    absurd
      ((indices_distinct demo_hkdf demo_hkdf_ok
        (keystore_set_session_key demo_hkdf
          (keystore_set_session_key demo_hkdf (keystore_alloc 0) 5 (demo_key 0x11) 1).ks
          6 (demo_key 0x22) 2).ks
        (ReachableVia.step _ _ (Op.set_session_key 6 (demo_key 0x22) 2)
          (ReachableVia.step (keystore_alloc 0) _ (Op.set_session_key 5 (demo_key 0x11) 1)
            (ReachableVia.create 0) (by decide)
            (fun i _ _ _ k _ hk => by simp [keystore_alloc, keyinfo.zero] at hk) rfl)
          (by decide)
          (fun i hi _ _ => by
            simp only [Op.stored_index, Option.some.injEq] at hi
            subst hi
            decide)
          rfl)).1 1 2 (by decide) (by decide) he)
      (by decide)⟩

end Avs
